import Mathlib

/-!
# TSDuck: conditional-access descriptor codec and `UString` template utilities

Shallow embedding of

* `src/libtsduck/tsCADescriptor.h` (class `ts::CADescriptor`; only the declarations are part of
  the sources at hand, the bodies of its methods are modelled from the specification), and
* `src/libtsduck/tsUStringTemplate.h` (`ts::UString::split`, `splitLines`, `Join`, `toInteger`,
  `toIntegers`, `Decimal`, `Hexa`).

Conventions: a `UString` is the list of its characters, a `ByteBlock` the list of its bytes
(natural numbers, a byte being a value below 256), machine integers are `Int`/`Nat` with the
reduction modulo `2^bits` written out where the source can overflow.
-/

namespace ts

/-- String of the toolkit (`ts::UString`): the sequence of its characters. -/
abbrev UString := List Char

/-- Block of bytes (`ts::ByteBlock`): the sequence of its bytes. -/
abbrev ByteBlock := List Nat

/-! ## Binary descriptors and the conditional-access descriptor -/

/-- Modelled from the spec: the binary descriptor (`ts::Descriptor`, "RawDescriptor" in the
specification, declared outside the sources at hand): a tag and a payload. -/
structure Descriptor where
  tag : Nat
  payload : ByteBlock
deriving DecidableEq

/-- Fields of `ts::CADescriptor` (tsCADescriptor.h, public members) together with the validity
flag inherited from `AbstractDescriptor`. -/
structure CADescriptor where
  valid : Bool
  cas_id : Nat
  ca_pid : Nat
  private_data : ByteBlock
deriving DecidableEq

/-- Modelled from the spec: descriptor tag of the CA_descriptor (`DID_CA`, "tag 0x09"). -/
def DID_CA : Nat := 0x09

/-- Modelled from the spec: `PutUInt16` (absent from the sources), the two bytes of a 16-bit
big-endian integer. -/
def PutUInt16 (v : Nat) : ByteBlock := [v / 256 % 256, v % 256]

/-- Modelled from the spec: `GetUInt16` (absent from the sources), the 16-bit big-endian integer
found at offset `off` of the memory `mem`. -/
def GetUInt16 (mem : Nat → Nat) (off : Nat) : Nat := mem off * 256 + mem (off + 1)

/-- Modelled from the spec: body of `CADescriptor::serialize` (only declared in
tsCADescriptor.h). "If not valid, encode nothing (zero-length payload). Writes cas_id as a
16-bit big-endian integer, then a 16-bit big-endian word whose top 3 bits are forced to 1 and
whose low 13 bits carry ca_pid, then raw private_data bytes." The payload of a binary
descriptor has at most 255 bytes ("payload.length ≤ 255", "private_data bounded by 255 − 4 =
251 bytes when embedded in a single descriptor"; a descriptor of another size "is rejected; no
partial structured state is retained"): with more than 251 bytes of private data nothing is
encoded either. -/
def CADescriptor.serialize (x : CADescriptor) : Descriptor :=
  if x.valid = true ∧ 4 + x.private_data.length ≤ 255 then
    { tag := DID_CA
      payload := PutUInt16 x.cas_id ++ PutUInt16 (0xE000 ||| (x.ca_pid &&& 0x1FFF))
                  ++ x.private_data }
  else
    { tag := DID_CA, payload := [] }

/-- The state of a `CADescriptor` after a failed decoding: invalid, every field cleared. -/
def CADescriptor.cleared : CADescriptor :=
  { valid := false, cas_id := 0, ca_pid := 0, private_data := [] }

/-- Modelled from the spec: body of `CADescriptor::deserialize` (only declared in
tsCADescriptor.h), over the payload address `mem` (`mem i` is the byte at offset `i`, also for
the offsets at and after `size`, which lie beyond the payload) and the payload size.
"Requires at least 4 payload bytes; if fewer, mark valid = false and clear all fields.
Otherwise read cas_id, mask the next 16-bit word to 13 bits for ca_pid, and take the remainder
as private_data. Mark valid = true." -/
def CADescriptor.deserializeAt (mem : Nat → Nat) (size : Nat) : CADescriptor :=
  if size < 4 then
    CADescriptor.cleared
  else
    { valid := true
      cas_id := GetUInt16 mem 0
      ca_pid := GetUInt16 mem 2 &&& 0x1FFF
      private_data := (List.range (size - 4)).map (fun i => mem (4 + i)) }

/-- The memory holding a byte block: byte `i` of the block at offset `i` (and, for the model,
zero beyond its end). -/
def ByteBlock.byteAt (b : ByteBlock) (i : Nat) : Nat := b.getD i 0

/-- Modelled from the spec: `CADescriptor::deserialize` of a binary descriptor, which decodes
the payload of the descriptor (its address and its size). -/
def CADescriptor.deserialize (bin : Descriptor) : CADescriptor :=
  CADescriptor.deserializeAt (ByteBlock.byteAt bin.payload) bin.payload.length

/-! ## Descriptor lists -/

/-- Modelled from the spec: the binary form `[tag][length][payload]` of a descriptor. -/
def Descriptor.bytes (d : Descriptor) : ByteBlock := d.tag :: d.payload.length :: d.payload

/-- Modelled from the spec: the encoded size of a descriptor, "2 + payload.length". -/
def Descriptor.size (d : Descriptor) : Nat := 2 + d.payload.length

/-- Modelled from the spec: `DescriptorList::serialize(maxSize)` (the class is only forward
declared in tsCADescriptor.h). "Concatenates [tag][length][payload] for each entry in order;
stops before exceeding maxSize; returns the number of whole descriptors written and the
produced byte count" (here the produced bytes). -/
def DescriptorList.serialize : List Descriptor → Nat → ByteBlock × Nat
  | [], _ => ([], 0)
  | d :: ds, maxSize =>
    if d.size ≤ maxSize then
      let r := DescriptorList.serialize ds (maxSize - d.size)
      (d.bytes ++ r.1, r.2 + 1)
    else
      ([], 0)

/-! ## Characters and integer types -/

/-- Modelled from the spec: `ts::IsSpace` is declared outside the sources at hand, and the
functions below take it as a parameter; this is the instance used on concrete strings, the
ASCII white space (space, tabulations, line feed, form feed, carriage return). -/
def asciiSpace (c : Char) : Bool :=
  decide (c.toNat = 32) || (decide (9 ≤ c.toNat) && decide (c.toNat ≤ 13))

/-- Modelled from the spec: `ts::ToDigit` (declared outside the sources at hand), the value of
a character as a digit in `base` ("decimal or 0x-hex", "hex digit string"): `'0'..'9'` count
0 to 9, letters of either case count from 10 on, and the result is -1 when the character is not
a digit of the base. -/
def ToDigit (c : Char) (base : Int) : Int :=
  let digit : Int :=
    if 48 ≤ c.toNat ∧ c.toNat ≤ 57 then (c.toNat : Int) - 48
    else if 97 ≤ c.toNat ∧ c.toNat ≤ 122 then (c.toNat : Int) - 97 + 10
    else if 65 ≤ c.toNat ∧ c.toNat ≤ 90 then (c.toNat : Int) - 65 + 10
    else -1
  if 0 ≤ digit ∧ digit < base then digit else -1

/-- An integer type `INT` of a template, as `std::numeric_limits<INT>` describes it:
signedness and number of bits of the representation. -/
structure IntType where
  is_signed : Bool
  bits : Nat
deriving DecidableEq

/-- Number of values of an integer type, `2^bits`. -/
def IntType.modulus (t : IntType) : Int := ((2 ^ t.bits : Nat) : Int)

/-- Largest value of an integer type (`std::numeric_limits<INT>::max()`). -/
def IntType.max (t : IntType) : Int :=
  if t.is_signed then ((2 ^ (t.bits - 1) : Nat) : Int) - 1 else t.modulus - 1

/-- Conversion of the mathematical result of an operation to the integer type: the arithmetic
of `INT` is modulo `2^bits`; for a signed type the result is taken in two's complement (the
C++ standard leaves a signed overflow undefined, this is what the usual compilers give; the
results below on signed types concern values in the range of the type, for which no overflow
takes place). -/
def IntType.wrap (t : IntType) (v : Int) : Int :=
  if t.is_signed then
    (v + ((2 ^ (t.bits - 1) : Nat) : Int)) % t.modulus - ((2 ^ (t.bits - 1) : Nat) : Int)
  else
    v % t.modulus

/-- The type `uint16_t`. -/
def uint16 : IntType := { is_signed := false, bits := 16 }

/-- The type `uint32_t`. -/
def uint32 : IntType := { is_signed := false, bits := 32 }

/-- The type `int32_t` (`int`). -/
def int32 : IntType := { is_signed := true, bits := 32 }

/-! ## `UString::toInteger` (tsUStringTemplate.h) -/

/-- The range `[start, end)` of `toInteger` after "Locate actual begin and end of integer
value": the leading white space is skipped, then the trailing white space. -/
def locateInteger (IsSpace : Char → Bool) (s : UString) : UString :=
  (s.dropWhile IsSpace).rdropWhile IsSpace

/-- The block "Skip optional sign" of `toInteger` on the range `[start, end)`: `none` when the
function returns false (a `'-'` for an unsigned type), else `negative` and the new range. -/
def skipSign (INT : IntType) : UString → Option (Bool × UString)
  | [] => some (false, [])
  | c :: r =>
    if c = '+' then some (false, r)
    else if c = '-' then
      if !INT.is_signed then none else some (true, r)
    else some (false, c :: r)

/-- The block "Look for hexadecimal prefix" of `toInteger`: the base and the new range. -/
def hexPrefix : UString → Int × UString
  | c0 :: c1 :: r => if c0 = '0' ∧ (c1 = 'x' ∨ c1 = 'X') then (16, r) else (10, c0 :: c1 :: r)
  | r => (10, r)

/-- The loop "Decode the string" of `toInteger` from `value` on the range `[start, end)`: the
value and the range left when the loop ends (empty unless the loop was left by `break`). -/
def decodeLoop (INT : IntType) (base : Int) (thousandSeparators : UString) :
    UString → Int → Int × UString
  | [], value => (value, [])
  | c :: r, value =>
    if 0 ≤ ToDigit c base then
      decodeLoop INT base thousandSeparators r (INT.wrap (value * base + ToDigit c base))
    else if ¬ (c ∈ thousandSeparators) then
      (value, c :: r)
    else
      decodeLoop INT base thousandSeparators r value

/-- The function `UString::toInteger<INT>(value, thousandSeparators)`: the returned boolean and
the final content of `value`. -/
def toInteger (IsSpace : Char → Bool) (INT : IntType) (s : UString)
    (thousandSeparators : UString) : Bool × Int :=
  match skipSign INT (locateInteger IsSpace s) with
  | none => (false, 0)
  | some (negative, r) =>
    if (hexPrefix r).2 = [] then
      (false, 0)
    else
      let d := decodeLoop INT (hexPrefix r).1 thousandSeparators (hexPrefix r).2 0
      (decide (d.2 = []), if negative then INT.wrap (-d.1) else d.1)

/-! ## `UString::split` (tsUStringTemplate.h) -/

/-- Modelled from the spec: `UString::trim` (declared outside the sources at hand), removal of
the leading and trailing white space. -/
def trim (IsSpace : Char → Bool) (s : UString) : UString :=
  (s.dropWhile IsSpace).rdropWhile IsSpace

/-- The statements "Extract segment" of `split`: the container after the segment was added. -/
def pushSegment (IsSpace : Char → Bool) (trimSpaces removeEmpty : Bool)
    (container : List UString) (segment : UString) : List UString :=
  let segment := if trimSpaces then trim IsSpace segment else segment
  if !removeEmpty || !segment.isEmpty then container ++ [segment] else container

/-- The loops of `split` on the C string: the argument is the string at `sep` (the empty list
is the terminating NUL), `segment` holds the characters from `input` to `sep`. A character that
is neither the separator nor NUL extends the segment (inner loop), the separator closes the
segment and starts the next one at `sep + 1`, NUL closes the last segment. -/
def splitLoop (IsSpace : Char → Bool) (separator : Char) (trimSpaces removeEmpty : Bool) :
    UString → UString → List UString → List UString
  | [], segment, container => pushSegment IsSpace trimSpaces removeEmpty container segment
  | c :: r, segment, container =>
    if c = Char.ofNat 0 then
      pushSegment IsSpace trimSpaces removeEmpty container segment
    else if c = separator then
      splitLoop IsSpace separator trimSpaces removeEmpty r []
        (pushSegment IsSpace trimSpaces removeEmpty container segment)
    else
      splitLoop IsSpace separator trimSpaces removeEmpty r (segment ++ [c]) container

/-- The function `UString::split(container, separator, trimSpaces, removeEmpty)`: the final
content of the container. -/
def split (IsSpace : Char → Bool) (s : UString) (separator : Char)
    (trimSpaces removeEmpty : Bool) : List UString :=
  splitLoop IsSpace separator trimSpaces removeEmpty s [] []

/-! ## `UString::splitLines` (tsUStringTemplate.h) -/

/-- The local variables of `splitLines` and the container `lines`. -/
structure SplitLinesState where
  lines : List UString
  marginLength : Nat
  start : Nat
  eol : Nat
  cur : Nat
deriving DecidableEq

/-- The loop "Start new line, skip leading spaces" of `splitLines`,
`while (start < length() && IsSpace(at(start))) start++`: the final value of `start`. -/
def skipSpaces (IsSpace : Char → Bool) (str : UString) (start : Nat) : Nat :=
  start + ((str.drop start).takeWhile IsSpace).length

/-- The character `at(i)` of a string, for an index inside the string. -/
def charAt (str : UString) (i : Nat) : Char := str.getD i (Char.ofNat 0)

/-- One iteration of the loop "Cut lines" of `splitLines`, entered with `cur < length()`.
The differences of `size_t` values are those of natural numbers: `start ≤ cur` holds in the
loop, and `start < eol` where a line is cut (`splitLinesStep_positions`). -/
def splitLinesStep (IsSpace : Char → Bool) (str : UString) (maxWidth : Nat)
    (otherSeparators nextMargin : UString) (forceSplit : Bool) (st : SplitLinesState) :
    SplitLinesState :=
  -- Possible end of line here
  let eol1 :=
    if IsSpace (charAt str st.cur) = true ∨
        (st.cur > st.start ∧ charAt str (st.cur - 1) ∈ otherSeparators) then st.cur
    else st.eol
  -- Reached max width
  let cutEol : Bool × Nat :=
    if st.marginLength + st.cur - st.start ≥ maxWidth then
      if eol1 > st.start then (true, eol1)
      else if forceSplit = true then (true, st.cur)
      else (false, eol1)
    else (false, eol1)
  if cutEol.1 = true then
    let start := skipSpaces IsSpace str cutEol.2
    { lines := st.lines ++
        [(if st.marginLength = 0 then [] else nextMargin) ++
          (str.drop st.start).take (cutEol.2 - st.start)]
      marginLength := nextMargin.length
      start := start
      eol := start
      cur := start }
  else
    { st with eol := cutEol.2, cur := st.cur + 1 }

/-- The loop `while (cur < length())` of `splitLines`, run for at most `fuel` iterations:
the state when the loop is left, `none` when the iterations are used up before. -/
def splitLinesLoop (IsSpace : Char → Bool) (str : UString) (maxWidth : Nat)
    (otherSeparators nextMargin : UString) (forceSplit : Bool) :
    Nat → SplitLinesState → Option SplitLinesState
  | 0, st => if st.cur < str.length then none else some st
  | fuel + 1, st =>
    if st.cur < str.length then
      splitLinesLoop IsSpace str maxWidth otherSeparators nextMargin forceSplit fuel
        (splitLinesStep IsSpace str maxWidth otherSeparators nextMargin forceSplit st)
    else some st

/-- The function `UString::splitLines(lines, maxWidth, otherSeparators, nextMargin,
forceSplit)`: the final content of `lines`. The loop is given `(length() + 1)^2` iterations,
which it never uses up (`splitLinesLoop_terminates`). -/
def splitLines (IsSpace : Char → Bool) (str : UString) (maxWidth : Nat)
    (otherSeparators nextMargin : UString) (forceSplit : Bool) : Option (List UString) :=
  if str.length ≤ maxWidth ∨ nextMargin.length ≥ maxWidth then
    some [str]
  else
    match splitLinesLoop IsSpace str maxWidth otherSeparators nextMargin forceSplit
        ((str.length + 1) * (str.length + 1))
        { lines := [], marginLength := 0, start := 0, eol := 0, cur := 0 } with
    | none => none
    | some st =>
      -- Rest of string on last line
      some (if st.start < str.length then st.lines ++ [nextMargin ++ str.drop st.start]
        else st.lines)

/-! ## `UString::Join` (tsUStringTemplate.h) -/

/-- The loop of `Join` on the elements from `begin` to `end`, from the value `res`. -/
def JoinLoop (separator : UString) : List UString → UString → UString
  | [], res => res
  | x :: r, res =>
    JoinLoop separator r ((if !res.isEmpty then res ++ separator else res) ++ x)

/-- The function `UString::Join(begin, end, separator)` on the sequence of the elements from
`begin` to `end`. -/
def Join (l : List UString) (separator : UString) : UString :=
  JoinLoop separator l []

/-! ## `UString::Decimal` (tsUStringTemplate.h) -/

/-- Conversion of an integer to `UChar`, a 16-bit code unit: the character of code `n` modulo
`2^16`. -/
def toUChar (n : Int) : Char := Char.ofNat (n % 65536).toNat

/-- The loop `while (ivalue != 0)` of `Decimal`, run for at most `fuel` iterations, on the
string `s` built in reverse order; `sep` is the separator in reverse order. The operators `%`
and `/` of C++ truncate towards zero. The result is `none` when the iterations are used up
before the loop is left. -/
def decimalLoop (sep : UString) : Nat → UString → Int → Nat → Option UString
  | 0, s, ivalue, _ => if ivalue ≠ 0 then none else some s
  | fuel + 1, s, ivalue, count =>
    if ivalue ≠ 0 then
      decimalLoop sep fuel
        (if (count + 1) % 3 = 0 ∧ ivalue.tdiv 10 ≠ 0 then
          s ++ [toUChar (48 + ivalue.tmod 10)] ++ sep
        else s ++ [toUChar (48 + ivalue.tmod 10)])
        (ivalue.tdiv 10) (count + 1)
    else some s

/-- The function `UString::Decimal<INT>(value, min_width, right_justified, separator,
force_sign, pad)`. The loop is given `|ivalue| + 1` iterations. -/
def Decimal (INT : IntType) (value : Int) (min_width : Nat) (right_justified : Bool)
    (separator : UString) (force_sign : Bool) (pad : Char) : Option UString :=
  -- We build the result string in s in reverse order, the separator too
  let sep := separator.reverse
  let negative : Bool := decide (value ≠ 0) && decide (value < 1)
  let ivalue : Int := if negative then INT.wrap (-value) else value
  -- Format the value
  let formatted : Option UString :=
    if ivalue = 0 then some ['0']
    else decimalLoop sep (ivalue.natAbs + 1) [] ivalue 0
  match formatted with
  | none => none
  | some s =>
    let s1 := if negative then s ++ ['-'] else if force_sign then s ++ ['+'] else s
    -- Reverse characters in string
    let s2 := s1.reverse
    -- Adjust string width
    some (if s2.length < min_width then
        if right_justified then List.replicate (min_width - s2.length) pad ++ s2
        else s2 ++ List.replicate (min_width - s2.length) pad
      else s2)

/-! ## `UString::Hexa` (tsUStringTemplate.h) -/

/-- The loop `while (width != 0)` of `Hexa` on the string `s` built in reverse order; `sep` is
the separator in reverse order. -/
def hexaLoop (sep : UString) (use_upper : Bool) : Nat → Nat → Nat → UString → UString
  | 0, _, _, s => s
  | width + 1, value, count, s =>
    let nibble := value &&& 0xF
    let c : Char :=
      if nibble < 10 then Char.ofNat (48 + nibble)
      else if use_upper then Char.ofNat (65 + (nibble - 10))
      else Char.ofNat (97 + (nibble - 10))
    hexaLoop sep use_upper width (value >>> 4) (count + 1)
      (if (count + 1) % 4 = 0 ∧ width > 0 then s ++ [c] ++ sep else s ++ [c])

/-- The function `UString::Hexa<INT>(value, width, separator, use_prefix, use_upper)` for a
value that is not negative (the value of an unsigned type, or of a signed type and not
negative); `sizeof(INT)` is `bits / 8`. -/
def Hexa (INT : IntType) (value : Nat) (width : Nat) (separator : UString)
    ( use_prefix use_upper : Bool) : UString :=
  let sep := separator.reverse
  -- Default to the natural size of the type
  let width1 := if width = 0 then 2 * (INT.bits / 8) else width
  let s := hexaLoop sep use_upper width1 value 0 []
  -- Add the optional prefix, still in reverse order
  let s1 := if use_prefix then s ++ ['x', '0'] else s
  s1.reverse

/-! ## `UString::toIntegers` (tsUStringTemplate.h) -/

/-- The loop "Loop on segments" of `toIntegers`, run for at most `fuel` iterations, on the
string `r` from index `start` to `farEnd`: the returned boolean and the container. The result
is `none` when the iterations are used up before the loop is left. -/
def toIntegersLoop (IsSpace : Char → Bool) (INT : IntType)
    (thousandSeparators listSeparators : UString) :
    Nat → UString → List Int → Option (Bool × List Int)
  | 0, r, container => if r ≠ [] then none else some (true, container)
  | fuel + 1, r, container =>
    if r ≠ [] then
      -- Skip spaces and list separators
      let r1 := r.dropWhile (fun c => IsSpace c || decide (c ∈ listSeparators))
      -- Locate end of segment
      let segment := r1.takeWhile (fun c => decide (c ∉ listSeparators))
      let r2 := r1.dropWhile (fun c => decide (c ∉ listSeparators))
      -- Exit at end of string
      if r1 = [] then some (true, container)
      else
        -- Decode segment
        if (toInteger IsSpace INT segment thousandSeparators).1 = false then
          some (false, container)
        else
          toIntegersLoop IsSpace INT thousandSeparators listSeparators fuel r2
            (container ++ [(toInteger IsSpace INT segment thousandSeparators).2])
    else some (true, container)

/-- The function `UString::toIntegers(container, thousandSeparators, listSeparators)`: the
returned boolean and the final content of the container. The loop is given `length() + 1`
iterations. -/
def toIntegers (IsSpace : Char → Bool) (INT : IntType) (s : UString)
    (thousandSeparators listSeparators : UString) : Option (Bool × List Int) :=
  toIntegersLoop IsSpace INT thousandSeparators listSeparators (s.length + 1) s []

/-- Invariant of the loop of `splitLines`, positions: `start ≤ cur ≤ length()`, the last
possible end of line is not after `cur`, and the margin is shorter than the maximum width. -/
def SplitLinesState.positionsOk (str : UString) (maxWidth : Nat) (st : SplitLinesState) : Prop :=
  st.start ≤ st.cur ∧ st.cur ≤ str.length ∧ st.eol ≤ st.cur ∧ st.marginLength < maxWidth

/-- Invariant of the loop of `splitLines` when the split is forced, widths: the current line
with its margin does not exceed the maximum width, the margin is that of the next lines unless
no line was cut yet, and no line of the container exceeds the maximum width. -/
def SplitLinesState.widthsOk (maxWidth : Nat) (nextMargin : UString) (st : SplitLinesState) :
    Prop :=
  st.marginLength + (st.cur - st.start) ≤ maxWidth ∧
  (st.marginLength = nextMargin.length ∨ (st.marginLength = 0 ∧ st.start = 0)) ∧
  ∀ l ∈ st.lines, l.length ≤ maxWidth

/-- Bound on the number of iterations that the loop of `splitLines` still runs. -/
def SplitLinesState.remaining (str : UString) (st : SplitLinesState) : Nat :=
  (str.length - st.start) * (str.length + 1) + (str.length - st.cur)

/-! ## Integer syntax (specification side) -/

/-- Decimal digit, `'0'` to `'9'`. -/
def isDecDigit (c : Char) : Bool := decide (48 ≤ c.toNat) && decide (c.toNat ≤ 57)

/-- Hexadecimal digit: a decimal digit, `'a'` to `'f'` or `'A'` to `'F'`. -/
def isHexDigit (c : Char) : Bool :=
  isDecDigit c || (decide (97 ≤ c.toNat) && decide (c.toNat ≤ 102))
    || (decide (65 ≤ c.toNat) && decide (c.toNat ≤ 70))

/-- Value of a decimal or hexadecimal digit. -/
def digitValue (c : Char) : Int :=
  if isDecDigit c then (c.toNat : Int) - 48
  else if 97 ≤ c.toNat then (c.toNat : Int) - 87
  else (c.toNat : Int) - 55

/-- The natural number that a run of digits writes in `base`, most significant digit first,
continuing the number `n`. -/
def numeralValue (base : Int) : UString → Int → Int
  | [], n => n
  | c :: r, n => numeralValue base r (n * base + digitValue c)

/-- An unsigned numeral and the number it writes: a non-empty run of decimal digits, or `0x`
or `0X` followed by a non-empty run of hexadecimal digits. -/
def Numeral (body : UString) (n : Int) : Prop :=
  (body ≠ [] ∧ (∀ c ∈ body, isDecDigit c = true) ∧ n = numeralValue 10 body 0) ∨
  (∃ x ds, body = '0' :: x :: ds ∧ (x = 'x' ∨ x = 'X') ∧ ds ≠ [] ∧
    (∀ c ∈ ds, isHexDigit c = true) ∧ n = numeralValue 16 ds 0)

/-- A numeral with an optional sign and the integer it writes; the sign `'-'` is part of the
syntax only when `is_signed` holds. -/
def SignedNumeral (is_signed : Bool) (r : UString) (n : Int) : Prop :=
  Numeral r n ∨ (∃ body, r = '+' :: body ∧ Numeral body n) ∨
  (∃ body m, r = '-' :: body ∧ is_signed = true ∧ Numeral body m ∧ n = -m)

/-- The string `s` denotes the integer `n`: after removing the leading and trailing white
space it is an optional sign followed by a decimal or `0x`-hexadecimal numeral writing `n`. -/
def Denotes (IsSpace : Char → Bool) (is_signed : Bool) (s : UString) (n : Int) : Prop :=
  SignedNumeral is_signed ((s.dropWhile IsSpace).rdropWhile IsSpace) n

/-- The accepted integer syntax: the string denotes some integer. -/
def IntegerSyntax (IsSpace : Char → Bool) (is_signed : Bool) (s : UString) : Prop :=
  ∃ n, Denotes IsSpace is_signed s n

/-! ## `CADescriptor::fromCommmandLine` -/

/-- Modelled from the spec: decoding of the private data of a command-line CA_descriptor
(`UString::hexaDecode`, absent from the sources): "an even-length hex digit string decoded to
bytes; odd length or non-hex characters is a parse failure". -/
def hexaDecode : UString → Option ByteBlock
  | [] => some []
  | [_] => none
  | h :: l :: r =>
    if 0 ≤ ToDigit h 16 ∧ 0 ≤ ToDigit l 16 then
      (hexaDecode r).map (fun bytes => (ToDigit h 16 * 16 + ToDigit l 16).toNat :: bytes)
    else
      none

/-- Modelled from the spec: the integer that a `casid` or `pid` part of a command-line
CA_descriptor writes, "casid and pid are integers, decimal or 0x-hex", as a natural number
without limit of size (a number out of the range of its field is to be rejected, not
truncated): a non-empty run of decimal digits is read in base 10; `0x` or `0X` followed by a
non-empty run of hexadecimal digits is read in base 16; a non-empty run of hexadecimal digits
with no prefix, when it is not a decimal number, is read in base 16 too, as the example
`"6a01/0x50"` of the specification requires (`cas_id = 0x6a01`). Another part writes no
integer. -/
def commandLineInteger (part : UString) : Option Nat :=
  if part ≠ [] ∧ (∀ c ∈ part, isDecDigit c = true) then
    some (numeralValue 10 part 0).toNat
  else if part ≠ [] ∧ (∀ c ∈ part, isHexDigit c = true) then
    some (numeralValue 16 part 0).toNat
  else
    match part with
    | c0 :: c1 :: ds =>
      if c0 = '0' ∧ (c1 = 'x' ∨ c1 = 'X') ∧ ds ≠ [] ∧ (∀ c ∈ ds, isHexDigit c = true) then
        some (numeralValue 16 ds 0).toNat
      else none
    | _ => none

/-- Modelled from the spec: body of `CADescriptor::fromCommmandLine` (only declared in
tsCADescriptor.h). "Parses casid/pid[/hexdata]; casid and pid are integers, decimal or
0x-hex"; a "numeric field [that] exceeds its bit-width domain" is "rejected at parse time"
("reject at parse, do not silently truncate"): `cas_id` has 16 bits, `ca_pid` 13 bits;
"hexdata, if present, must be an even-length hex digit string decoded to bytes". "On any
failure the object is left unchanged and the function reports failure; no partial field is
written." The result is the returned boolean and the object after the call. -/
def CADescriptor.fromCommmandLine (x : CADescriptor) (value : UString) : Bool × CADescriptor :=
  match value.splitOn '/' with
  | casid :: pid :: more =>
    let data : Option ByteBlock :=
      match more with
      | [] => some []
      | [hexdata] => hexaDecode hexdata
      | _ => none
    match commandLineInteger casid, commandLineInteger pid, data with
    | some c, some p, some bytes =>
      if c ≤ 0xFFFF ∧ p ≤ 0x1FFF then
        (true, { valid := true, cas_id := c, ca_pid := p, private_data := bytes })
      else
        (false, x)
    | _, _, _ => (false, x)
  | _ => (false, x)

/-! ## Formatting of integers (specification side) -/

/-- The hexadecimal digit of value `d`, with upper case or lower case letters. -/
def hexDigit (upper : Bool) (d : Nat) : Char :=
  (if upper then "0123456789ABCDEF".toList else "0123456789abcdef".toList).getD d '?'

/-- The `n` low-order hexadecimal digits of `v`, most significant first: the digit of weight
`16^i` is `v / 16^i % 16`, for `i` from `n - 1` down to `0` (zeros beyond the digits of `v`,
the digits of `v` of weight `16^n` and more are left out). -/
def lowHexDigits (upper : Bool) (v n : Nat) : UString :=
  (List.range n).reverse.map (fun i => hexDigit upper (v / 16 ^ i % 16))

/-- Digits with the separator between the groups of three digits counted from the right: the
separator follows a digit exactly when the number of digits after it is a multiple of three
and not zero. -/
def groupDigits (sep : UString) : UString → UString
  | [] => []
  | d :: r => (d :: (if r ≠ [] ∧ r.length % 3 = 0 then sep else [])) ++ groupDigits sep r

/-- Grouping of the digits by three when `c` digits stand after the list: the separator
follows a digit exactly when the number of digits after it, the `c` last ones included, is a
multiple of three and the list goes on. -/
def groupDigitsAfter (sep : UString) (c : Nat) : UString → UString
  | [] => []
  | d :: r =>
    (d :: (if r ≠ [] ∧ (r.length + c) % 3 = 0 then sep else [])) ++ groupDigitsAfter sep c r

/-- The plain decimal representation of a natural number (that of `Nat.repr`). -/
def decimalDigits (n : Nat) : UString := Nat.toDigits 10 n

/-- The result of a formatting padded with `pad` to the width `w`, on the left or on the
right. -/
def padTo (w : Nat) (left : Bool) (pad : Char) (s : UString) : UString :=
  if left then List.replicate (w - s.length) pad ++ s else s ++ List.replicate (w - s.length) pad

/-! ## Lists of integers (specification side) -/

/-- The segments of a string that lists integers with the list separator `','`: the parts of
the string between the separators, without their leading white space, a part that is empty or
made of white space only being no segment (`toIntegers` skips them: "Skip spaces and list
separators"). -/
def segments (IsSpace : Char → Bool) (s : UString) : List UString :=
  ((s.splitOn ',').map (fun p => p.dropWhile IsSpace)).filter (fun p => !p.isEmpty)

/-- Decoding of segments in order with `toInteger`, after the content `container`: the first
segment that is not decoded gives false and stops the decoding. -/
def decodeSegments (IsSpace : Char → Bool) (INT : IntType) :
    List UString → List Int → Bool × List Int
  | [], container => (true, container)
  | seg :: rest, container =>
    if (toInteger IsSpace INT seg []).1 = false then (false, container)
    else decodeSegments IsSpace INT rest (container ++ [(toInteger IsSpace INT seg []).2])

/-! # Theorems -/

/-! ## Conditional-access descriptor: binary form -/

/-- The reserved bits `0xE000` and a 13-bit value occupy disjoint bits. -/
theorem reserved_or_eq_add (p : Nat) : 0xE000 ||| (p &&& 0x1FFF) = 0xE000 + p % 8192 := by
  have h1 : p &&& 0x1FFF = p % 2 ^ 13 := Nat.and_pow_two_sub_one_eq_mod p 13
  have h2 : p % 2 ^ 13 < 2 ^ 13 := Nat.mod_lt _ (by norm_num)
  have h3 := Nat.mul_add_lt_is_or h2 7
  rw [h1]
  norm_num at h3 ⊢
  omega

theorem and_0x1FFF (w : Nat) : w &&& 0x1FFF = w % 8192 :=
  Nat.and_pow_two_sub_one_eq_mod w 13

/-- The bytes of a block read back through its memory, from offset `k` on. -/
theorem map_byteAt_drop (b : ByteBlock) (k : Nat) :
    (List.range (b.length - k)).map (fun i => ByteBlock.byteAt b (k + i)) = b.drop k := by
  apply List.ext_getElem
  · simp
  · intro i h1 h2
    simp only [List.length_map, List.length_range] at h1
    simp only [List.getElem_map, List.getElem_range, ByteBlock.byteAt, List.getElem_drop]
    rw [List.getD_eq_getElem _ _ (by omega)]

theorem deserialize_four (tag b0 b1 b2 b3 : Nat) (rest : ByteBlock) :
    CADescriptor.deserialize { tag := tag, payload := b0 :: b1 :: b2 :: b3 :: rest } =
      { valid := true, cas_id := b0 * 256 + b1, ca_pid := (b2 * 256 + b3) % 8192,
        private_data := rest } := by
  have h := map_byteAt_drop (b0 :: b1 :: b2 :: b3 :: rest) 4
  have hl : (b0 :: b1 :: b2 :: b3 :: rest).length - 4 = rest.length := by
    simp only [List.length_cons]; omega
  rw [hl] at h
  simp only [List.drop_succ_cons, List.drop_zero] at h
  simp only [CADescriptor.deserialize, CADescriptor.deserializeAt]
  rw [if_neg (by simp only [List.length_cons]; omega), hl, h, and_0x1FFF]
  simp [GetUInt16, ByteBlock.byteAt]

/-- Decoding looks only at the `size` bytes of the payload: two memories that agree on the
offsets below `size` decode to the same object. -/
theorem deserializeAt_congr (mem mem' : Nat → Nat) (size : Nat)
    (h : ∀ i, i < size → mem i = mem' i) :
    CADescriptor.deserializeAt mem size = CADescriptor.deserializeAt mem' size := by
  unfold CADescriptor.deserializeAt
  by_cases hs : size < 4
  · rw [if_pos hs, if_pos hs]
  · rw [if_neg hs, if_neg hs]
    have e0 : GetUInt16 mem 0 = GetUInt16 mem' 0 := by
      simp only [GetUInt16]; rw [h 0 (by omega), h (0 + 1) (by omega)]
    have e2 : GetUInt16 mem 2 = GetUInt16 mem' 2 := by
      simp only [GetUInt16]; rw [h 2 (by omega), h (2 + 1) (by omega)]
    have e3 : (List.range (size - 4)).map (fun i => mem (4 + i)) =
        (List.range (size - 4)).map (fun i => mem' (4 + i)) := by
      apply List.map_congr_left
      intro i hi
      exact h (4 + i) (by have := List.mem_range.mp hi; omega)
    rw [e0, e2, e3]

theorem serialize_payload (x : CADescriptor) (hv : x.valid = true)
    (hd : x.private_data.length ≤ 251) :
    x.serialize.payload =
      PutUInt16 x.cas_id ++ (PutUInt16 (0xE000 ||| (x.ca_pid &&& 0x1FFF)) ++ x.private_data) := by
  unfold CADescriptor.serialize
  rw [if_pos ⟨hv, by omega⟩]
  simp

/-- The payload of a serialized descriptor never exceeds the 255 bytes of a descriptor. -/
theorem serialize_payload_le (x : CADescriptor) : x.serialize.payload.length ≤ 255 := by
  unfold CADescriptor.serialize
  split
  · rename_i h
    simp only [PutUInt16, List.length_append, List.length_cons, List.length_nil]
    omega
  · simp

/-- C1. Round trip: a valid conditional-access descriptor with `cas_id` in `[0,65535]`,
`ca_pid` in `[0,0x1FFF]` and at most 251 bytes of private data is serialized into a binary
descriptor of at most 255 payload bytes, the deserialization of which is valid and has the same
`cas_id`, `ca_pid` and `private_data`. -/
theorem CADescriptor_round_trip (x : CADescriptor) (hv : x.valid = true)
    (hc : x.cas_id ≤ 65535) (hp : x.ca_pid ≤ 0x1FFF) (hd : x.private_data.length ≤ 251) :
    x.serialize.payload.length ≤ 255 ∧
    (CADescriptor.deserialize x.serialize).valid = true ∧
    (CADescriptor.deserialize x.serialize).cas_id = x.cas_id ∧
    (CADescriptor.deserialize x.serialize).ca_pid = x.ca_pid ∧
    (CADescriptor.deserialize x.serialize).private_data = x.private_data := by
  have hpay := serialize_payload x hv hd
  have hw : 0xE000 ||| (x.ca_pid &&& 0x1FFF) = 0xE000 + x.ca_pid := by
    rw [reserved_or_eq_add]; omega
  have hbin : x.serialize = { tag := x.serialize.tag, payload := x.serialize.payload } := rfl
  refine ⟨?_, ?_⟩
  · rw [hpay]; simp only [PutUInt16, List.length_append, List.length_cons, List.length_nil]
    omega
  · rw [hbin, hpay, hw]
    simp only [PutUInt16, List.cons_append, List.nil_append]
    rw [deserialize_four]
    refine ⟨rfl, ?_, ?_, rfl⟩
    · show x.cas_id / 256 % 256 * 256 + x.cas_id % 256 = x.cas_id
      omega
    · show ((0xE000 + x.ca_pid) / 256 % 256 * 256 + (0xE000 + x.ca_pid) % 256) % 8192 = x.ca_pid
      omega

theorem CADescriptor_round_trip_witness :
    (CADescriptor.serialize
      { valid := true, cas_id := 0x6a01, ca_pid := 0x50, private_data := [0xDE, 0xAD] }
      ).payload.length ≤ 255 ∧
    (CADescriptor.deserialize (CADescriptor.serialize
      { valid := true, cas_id := 0x6a01, ca_pid := 0x50, private_data := [0xDE, 0xAD] }
      )).valid = true ∧
    (CADescriptor.deserialize (CADescriptor.serialize
      { valid := true, cas_id := 0x6a01, ca_pid := 0x50, private_data := [0xDE, 0xAD] }
      )).cas_id = 0x6a01 ∧
    (CADescriptor.deserialize (CADescriptor.serialize
      { valid := true, cas_id := 0x6a01, ca_pid := 0x50, private_data := [0xDE, 0xAD] }
      )).ca_pid = 0x50 ∧
    (CADescriptor.deserialize (CADescriptor.serialize
      { valid := true, cas_id := 0x6a01, ca_pid := 0x50, private_data := [0xDE, 0xAD] }
      )).private_data = [0xDE, 0xAD] :=
  CADescriptor_round_trip
    { valid := true, cas_id := 0x6a01, ca_pid := 0x50, private_data := [0xDE, 0xAD] }
    rfl (by decide) (by decide) (by decide)

/-- C2. Truncation safety: on a binary descriptor with fewer than 4 payload bytes,
`deserialize` leaves an invalid object with every field cleared, whatever the bytes are, and
the result does not depend on the memory at and after the end of the payload (no byte beyond
the supplied payload is read). -/
theorem CADescriptor_deserialize_truncated (bin : Descriptor) (h : bin.payload.length < 4) :
    (CADescriptor.deserialize bin).valid = false ∧
    (CADescriptor.deserialize bin).cas_id = 0 ∧
    (CADescriptor.deserialize bin).ca_pid = 0 ∧
    (CADescriptor.deserialize bin).private_data = [] ∧
    ∀ mem : Nat → Nat, (∀ i, i < bin.payload.length → mem i = ByteBlock.byteAt bin.payload i) →
      CADescriptor.deserializeAt mem bin.payload.length = CADescriptor.deserialize bin := by
  have e : CADescriptor.deserialize bin = CADescriptor.cleared := by
    simp only [CADescriptor.deserialize, CADescriptor.deserializeAt]
    rw [if_pos h]
  refine ⟨?_, ?_, ?_, ?_, ?_⟩
  · rw [e]; rfl
  · rw [e]; rfl
  · rw [e]; rfl
  · rw [e]; rfl
  · intro mem hm
    exact deserializeAt_congr _ _ _ hm

theorem CADescriptor_deserialize_truncated_witness :
    (CADescriptor.deserialize { tag := 9, payload := [0x6a, 0x01, 0xE0] }).valid = false ∧
    (CADescriptor.deserialize { tag := 9, payload := [0x6a, 0x01, 0xE0] }).cas_id = 0 ∧
    (CADescriptor.deserialize { tag := 9, payload := [0x6a, 0x01, 0xE0] }).ca_pid = 0 ∧
    (CADescriptor.deserialize { tag := 9, payload := [0x6a, 0x01, 0xE0] }).private_data = [] ∧
    ∀ mem : Nat → Nat,
      (∀ i, i < [0x6a, 0x01, 0xE0].length → mem i = ByteBlock.byteAt [0x6a, 0x01, 0xE0] i) →
      CADescriptor.deserializeAt mem [0x6a, 0x01, 0xE0].length =
        CADescriptor.deserialize { tag := 9, payload := [0x6a, 0x01, 0xE0] } :=
  CADescriptor_deserialize_truncated { tag := 9, payload := [0x6a, 0x01, 0xE0] } (by decide)

/-- C3, as stated, fails for a valid object the private data of which do not fit a descriptor:
with 252 bytes of private data the payload would have 256 bytes, more than the 255 bytes of a
descriptor, and it is not `4 + private_data.length` bytes long (nothing is encoded). -/
theorem CADescriptor_serialize_oversize :
    (CADescriptor.serialize
      { valid := true, cas_id := 1, ca_pid := 1, private_data := List.replicate 252 0 }
      ).payload.length ≤ 255 ∧
    4 + (List.replicate 252 0 : ByteBlock).length = 256 ∧
    (CADescriptor.serialize
      { valid := true, cas_id := 1, ca_pid := 1, private_data := List.replicate 252 0 }
      ).payload.length ≠ 4 + (List.replicate 252 0 : ByteBlock).length ∧
    (CADescriptor.serialize
      { valid := true, cas_id := 1, ca_pid := 1, private_data := List.replicate 252 0 }
      ).payload = [] := by
  have h : CADescriptor.serialize
      { valid := true, cas_id := 1, ca_pid := 1, private_data := List.replicate 252 0 } =
      { tag := DID_CA, payload := [] } := by
    unfold CADescriptor.serialize
    rw [if_neg]
    simp only [List.length_replicate]
    omega
  rw [h]
  refine ⟨Nat.zero_le _, ?_, ?_, rfl⟩
  · rw [List.length_replicate]
  · rw [List.length_replicate]
    decide

/-- C3, amended. Wire layout: for a valid object with at most 251 bytes of private data, the
payload written by `serialize` is `cas_id` as two big-endian bytes, then the two big-endian
bytes of the word `0xE000 | (ca_pid & 0x1FFF)`, the top 3 bits of which are 1 and the low 13
bits of which are those of `ca_pid`, whatever `ca_pid` is, then the private data unchanged; its
length is `4 + private_data.length`, at most 255. For no object does `serialize` give a
payload of more than 255 bytes. -/
theorem CADescriptor_serialize_layout (x : CADescriptor) (hv : x.valid = true)
    (hd : x.private_data.length ≤ 251) :
    x.serialize.payload =
      [x.cas_id / 256 % 256, x.cas_id % 256,
       (0xE000 ||| (x.ca_pid &&& 0x1FFF)) / 256 % 256, (0xE000 ||| (x.ca_pid &&& 0x1FFF)) % 256]
      ++ x.private_data ∧
    (0xE000 ||| (x.ca_pid &&& 0x1FFF)) < 65536 ∧
    (0xE000 ||| (x.ca_pid &&& 0x1FFF)) / 8192 = 7 ∧
    (0xE000 ||| (x.ca_pid &&& 0x1FFF)) % 8192 = x.ca_pid % 8192 ∧
    x.serialize.payload.length = 4 + x.private_data.length ∧
    x.serialize.payload.length ≤ 255 ∧
    ∀ y : CADescriptor, y.serialize.payload.length ≤ 255 := by
  have hpay := serialize_payload x hv hd
  have hw := reserved_or_eq_add x.ca_pid
  have hlen : x.serialize.payload.length = 4 + x.private_data.length := by
    rw [hpay]; simp only [PutUInt16, List.length_append, List.length_cons, List.length_nil]
    omega
  refine ⟨?_, ?_, ?_, ?_, hlen, by omega, serialize_payload_le⟩
  · rw [hpay]; rfl
  · rw [hw]; omega
  · rw [hw]; omega
  · rw [hw]; omega

theorem CADescriptor_serialize_layout_witness :
    (CADescriptor.serialize
      { valid := true, cas_id := 0x6a01, ca_pid := 0xFFFF, private_data := [1, 2, 3] }).payload =
      [0x6a01 / 256 % 256, 0x6a01 % 256,
       (0xE000 ||| (0xFFFF &&& 0x1FFF)) / 256 % 256, (0xE000 ||| (0xFFFF &&& 0x1FFF)) % 256]
      ++ [1, 2, 3] ∧
    (0xE000 ||| (0xFFFF &&& 0x1FFF)) < 65536 ∧
    (0xE000 ||| (0xFFFF &&& 0x1FFF)) / 8192 = 7 ∧
    (0xE000 ||| (0xFFFF &&& 0x1FFF)) % 8192 = 0xFFFF % 8192 ∧
    (CADescriptor.serialize
      { valid := true, cas_id := 0x6a01, ca_pid := 0xFFFF, private_data := [1, 2, 3] }
      ).payload.length = 4 + [1, 2, 3].length ∧
    (CADescriptor.serialize
      { valid := true, cas_id := 0x6a01, ca_pid := 0xFFFF, private_data := [1, 2, 3] }
      ).payload.length ≤ 255 ∧
    ∀ y : CADescriptor, y.serialize.payload.length ≤ 255 :=
  CADescriptor_serialize_layout
    { valid := true, cas_id := 0x6a01, ca_pid := 0xFFFF, private_data := [1, 2, 3] } rfl
    (by decide)

/-- C4. Decoding of a payload of at least 4 bytes: the object is valid, `cas_id` is the
big-endian value of bytes 0-1, `ca_pid` the big-endian value of bytes 2-3 masked with `0x1FFF`,
`private_data` the remaining bytes; hence replacing byte 2 by a byte with the same low 5 bits
(a payload that differs only in the top 3 bits of byte 2) gives an equal object. -/
theorem CADescriptor_deserialize_fields (bin : Descriptor) (h : 4 ≤ bin.payload.length) :
    (CADescriptor.deserialize bin).valid = true ∧
    (CADescriptor.deserialize bin).cas_id =
      ByteBlock.byteAt bin.payload 0 * 256 + ByteBlock.byteAt bin.payload 1 ∧
    (CADescriptor.deserialize bin).ca_pid =
      (ByteBlock.byteAt bin.payload 2 * 256 + ByteBlock.byteAt bin.payload 3) &&& 0x1FFF ∧
    (CADescriptor.deserialize bin).private_data = bin.payload.drop 4 ∧
    ∀ (tag2 byte2 : Nat), byte2 % 32 = ByteBlock.byteAt bin.payload 2 % 32 →
      CADescriptor.deserialize { tag := tag2, payload := bin.payload.set 2 byte2 } =
        CADescriptor.deserialize bin := by
  obtain ⟨tag, payload⟩ := bin
  match payload, h with
  | b0 :: b1 :: b2 :: b3 :: rest, _ =>
    simp only [List.set_cons_succ, List.set_cons_zero]
    refine ⟨?_, ?_, ?_, ?_, ?_⟩
    · rw [deserialize_four]
    · rw [deserialize_four]; rfl
    · rw [deserialize_four, and_0x1FFF]; rfl
    · rw [deserialize_four]; rfl
    · intro tag2 byte2 hb
      rw [deserialize_four, deserialize_four]
      have hb2 : byte2 % 32 = b2 % 32 := hb
      have e : (byte2 * 256 + b3) % 8192 = (b2 * 256 + b3) % 8192 := by omega
      rw [e]

theorem CADescriptor_deserialize_fields_witness :
    (CADescriptor.deserialize { tag := 9, payload := [0x6a, 0x01, 0xE0, 0x50, 0xDE] }).valid
      = true ∧
    (CADescriptor.deserialize { tag := 9, payload := [0x6a, 0x01, 0xE0, 0x50, 0xDE] }).cas_id =
      ByteBlock.byteAt [0x6a, 0x01, 0xE0, 0x50, 0xDE] 0 * 256 +
        ByteBlock.byteAt [0x6a, 0x01, 0xE0, 0x50, 0xDE] 1 ∧
    (CADescriptor.deserialize { tag := 9, payload := [0x6a, 0x01, 0xE0, 0x50, 0xDE] }).ca_pid =
      (ByteBlock.byteAt [0x6a, 0x01, 0xE0, 0x50, 0xDE] 2 * 256 +
        ByteBlock.byteAt [0x6a, 0x01, 0xE0, 0x50, 0xDE] 3) &&& 0x1FFF ∧
    (CADescriptor.deserialize
      { tag := 9, payload := [0x6a, 0x01, 0xE0, 0x50, 0xDE] }).private_data =
      [0x6a, 0x01, 0xE0, 0x50, 0xDE].drop 4 ∧
    ∀ (tag2 byte2 : Nat), byte2 % 32 = ByteBlock.byteAt [0x6a, 0x01, 0xE0, 0x50, 0xDE] 2 % 32 →
      CADescriptor.deserialize
          { tag := tag2, payload := [0x6a, 0x01, 0xE0, 0x50, 0xDE].set 2 byte2 } =
        CADescriptor.deserialize { tag := 9, payload := [0x6a, 0x01, 0xE0, 0x50, 0xDE] } :=
  CADescriptor_deserialize_fields { tag := 9, payload := [0x6a, 0x01, 0xE0, 0x50, 0xDE] }
    (by decide)

/-! ## Descriptor lists -/

theorem Descriptor_bytes_length (d : Descriptor) : d.bytes.length = d.size := by
  simp only [Descriptor.bytes, Descriptor.size, List.length_cons]
  omega

/-- C5. List size bound: `serialize(maxSize)` emits at most `maxSize` bytes, which are the
concatenation of `[tag][length][payload]` of the first `n` descriptors of the list, in order,
`n` being the returned count of whole descriptors; when a descriptor is left, it is one that
would not fit any more. -/
theorem DescriptorList_serialize_bound (l : List Descriptor) (maxSize : Nat) :
    (DescriptorList.serialize l maxSize).1.length ≤ maxSize ∧
    (DescriptorList.serialize l maxSize).2 ≤ l.length ∧
    (DescriptorList.serialize l maxSize).1 =
      ((l.take (DescriptorList.serialize l maxSize).2).map Descriptor.bytes).flatten ∧
    ∀ d, l.get? (DescriptorList.serialize l maxSize).2 = some d →
      maxSize < (DescriptorList.serialize l maxSize).1.length + d.size := by
  induction l generalizing maxSize with
  | nil => simp [DescriptorList.serialize]
  | cons d ds ih =>
    by_cases hfit : d.size ≤ maxSize
    · obtain ⟨h1, h2, h3, h4⟩ := ih (maxSize - d.size)
      simp only [DescriptorList.serialize, if_pos hfit, List.length_append,
        Descriptor_bytes_length, List.length_cons, List.take_succ_cons, List.map_cons,
        List.flatten_cons, List.get?_cons_succ]
      refine ⟨by omega, by omega, ?_, ?_⟩
      · rw [← h3]
      · intro e he
        have := h4 e he
        omega
    · simp only [DescriptorList.serialize, if_neg hfit, List.length_nil, List.take_zero,
        List.map_nil, List.flatten_nil, List.get?_cons_zero, Option.some.injEq]
      refine ⟨by omega, by omega, trivial, ?_⟩
      intro e he
      subst he
      omega

/-! ## Digits and integer types -/

theorem ToDigit_ten (c : Char) :
    (0 ≤ ToDigit c 10 ↔ isDecDigit c = true) ∧
    (isDecDigit c = true → ToDigit c 10 = digitValue c) := by
  simp only [ToDigit, isDecDigit, digitValue, Bool.and_eq_true, decide_eq_true_eq]
  generalize c.toNat = k
  split_ifs <;> constructor <;> (try constructor) <;> intros <;> omega

theorem ToDigit_sixteen (c : Char) :
    (0 ≤ ToDigit c 16 ↔ isHexDigit c = true) ∧
    (isHexDigit c = true → ToDigit c 16 = digitValue c) := by
  simp only [ToDigit, isHexDigit, isDecDigit, digitValue, Bool.and_eq_true, Bool.or_eq_true,
    decide_eq_true_eq]
  generalize c.toNat = k
  split_ifs <;> constructor <;> (try constructor) <;> intros <;> omega

theorem modulus_pos (t : IntType) : 0 < t.modulus := by
  unfold IntType.modulus
  exact_mod_cast Nat.pos_pow_of_pos t.bits (by norm_num)

/-- The conversion to the integer type keeps the residue modulo `2^bits`. -/
theorem wrap_emod (t : IntType) (v : Int) : t.wrap v % t.modulus = v % t.modulus := by
  unfold IntType.wrap
  split
  · rw [Int.sub_emod, Int.emod_emod_of_dvd _ (dvd_refl _), ← Int.sub_emod]
    simp
  · exact Int.emod_emod_of_dvd _ (dvd_refl _)

/-- The conversion to the integer type depends on the residue modulo `2^bits` only. -/
theorem wrap_congr (t : IntType) (a b : Int) (h : a % t.modulus = b % t.modulus) :
    t.wrap a = t.wrap b := by
  unfold IntType.wrap
  split
  · have e : ∀ k : Int, (a + k) % t.modulus = (b + k) % t.modulus := by
      intro k
      rw [Int.add_emod, h, ← Int.add_emod]
    rw [e]
  · exact h

/-- A value of the integer type is not changed by the conversion. -/
theorem wrap_of_le_max (t : IntType) (hb : 0 < t.bits) (v : Int) (h0 : 0 ≤ v) (h1 : v ≤ t.max) :
    t.wrap v = v := by
  have hpow : (2 ^ t.bits : Nat) = 2 * 2 ^ (t.bits - 1) := by
    obtain ⟨k, hk⟩ : ∃ k, t.bits = k + 1 := ⟨t.bits - 1, by omega⟩
    rw [hk, Nat.add_sub_cancel, Nat.pow_succ]
    omega
  unfold IntType.max at h1
  unfold IntType.wrap
  unfold IntType.modulus at h1 ⊢
  generalize (2 ^ t.bits : Nat) = m at hpow h1 ⊢
  generalize (2 ^ (t.bits - 1) : Nat) = h at hpow h1 ⊢
  subst hpow
  split
  · rename_i hs
    rw [if_pos hs] at h1
    rw [Int.emod_eq_of_lt (by omega) (by push_cast; omega)]
    omega
  · rename_i hs
    rw [if_neg hs] at h1
    exact Int.emod_eq_of_lt h0 (by omega)

theorem step_congr (m base d a b : Int) (h : a % m = b % m) :
    (a * base + d) % m = (b * base + d) % m := by
  have h1 : Int.ModEq m a b := h
  exact (h1.mul_right base).add_right d

/-- The decoding loop on a non-empty run of digits of the base: the loop runs to the end of the
range and the value is the number that the digits write, converted to the integer type. -/
theorem decodeLoop_digits (INT : IntType) (base : Int) (seps : UString) (ds : UString)
    (hd : ∀ c ∈ ds, 0 ≤ ToDigit c base ∧ ToDigit c base = digitValue c) (hne : ds ≠ [])
    (v u : Int) (hvu : v % INT.modulus = u % INT.modulus) :
    decodeLoop INT base seps ds v = (INT.wrap (numeralValue base ds u), []) := by
  induction ds generalizing v u with
  | nil => exact absurd rfl hne
  | cons c r ih =>
    have hc := hd c (List.mem_cons_self c r)
    have hstep := step_congr INT.modulus base (ToDigit c base) v u hvu
    simp only [decodeLoop, if_pos hc.1, numeralValue]
    rw [← hc.2]
    by_cases hr : r = []
    · subst hr
      simp only [decodeLoop, numeralValue]
      rw [wrap_congr INT _ _ hstep]
    · exact ih (fun c' hc' => hd c' (List.mem_cons_of_mem c hc')) hr _ _
        ((wrap_emod INT _).trans hstep)

/-- Without thousands separators, the decoding loop runs to the end of the range only when
every character is a digit of the base. -/
theorem decodeLoop_end (INT : IntType) (base : Int) (ds : UString) (v : Int)
    (h : (decodeLoop INT base [] ds v).2 = []) : ∀ c ∈ ds, 0 ≤ ToDigit c base := by
  induction ds generalizing v with
  | nil => intro c hc; cases hc
  | cons c r ih =>
    by_cases hc : 0 ≤ ToDigit c base
    · simp only [decodeLoop, if_pos hc] at h
      intro c' hc'
      rcases List.mem_cons.mp hc' with e | e
      · rw [e]; exact hc
      · exact ih _ h c' e
    · simp [decodeLoop, if_neg hc] at h

/-! ## `toInteger`: accepted syntax and decoded value -/

theorem hexPrefix_decimal (body : UString) (hall : ∀ c ∈ body, isDecDigit c = true) :
    hexPrefix body = (10, body) := by
  match body, hall with
  | [], _ => rfl
  | [_], _ => rfl
  | c0 :: c1 :: r, hall =>
    have h1 : isDecDigit c1 = true := hall c1 (by simp)
    have hx : ¬ (c1 = 'x' ∨ c1 = 'X') := by
      rintro (e | e) <;> subst e <;> revert h1 <;> decide
    simp only [hexPrefix]
    rw [if_neg (fun h => hx h.2)]

theorem hexPrefix_hexadecimal (x : Char) (ds : UString) (hx : x = 'x' ∨ x = 'X') :
    hexPrefix ('0' :: x :: ds) = (16, ds) := by
  simp only [hexPrefix]
  rw [if_pos ⟨trivial, hx⟩]

theorem skipSign_of_not_sign (INT : IntType) (c : Char) (r : UString) (h1 : c ≠ '+')
    (h2 : c ≠ '-') : skipSign INT (c :: r) = some (false, c :: r) := by
  simp only [skipSign]
  rw [if_neg h1, if_neg h2]

/-- On an unsigned numeral, `toInteger` finds no sign, a non-empty range after the optional
prefix, and decodes the number that the numeral writes. -/
theorem numeral_decoded (INT : IntType) (body : UString) (n : Int) (h : Numeral body n) :
    skipSign INT body = some (false, body) ∧ (hexPrefix body).2 ≠ [] ∧
    decodeLoop INT (hexPrefix body).1 [] (hexPrefix body).2 0 = (INT.wrap n, []) := by
  rcases h with ⟨hne, hall, hn⟩ | ⟨x, ds, hb, hx, hne, hall, hn⟩
  · rw [hexPrefix_decimal body hall, hn]
    refine ⟨?_, hne, ?_⟩
    · match body, hne, hall with
      | c :: r, _, hall =>
        have hc : isDecDigit c = true := hall c (by simp)
        apply skipSign_of_not_sign
        · rintro e; subst e; revert hc; decide
        · rintro e; subst e; revert hc; decide
    · exact decodeLoop_digits INT 10 [] body
        (fun c hc => ⟨(ToDigit_ten c).1.mpr (hall c hc), (ToDigit_ten c).2 (hall c hc)⟩)
        hne 0 0 rfl
  · subst hb
    rw [hexPrefix_hexadecimal x ds hx, hn]
    refine ⟨skipSign_of_not_sign INT _ _ (by decide) (by decide), hne, ?_⟩
    exact decodeLoop_digits INT 16 [] ds
      (fun c hc => ⟨(ToDigit_sixteen c).1.mpr (hall c hc), (ToDigit_sixteen c).2 (hall c hc)⟩)
      hne 0 0 rfl

/-- When the range after the optional prefix is not empty and is decoded to its end, the range
before the prefix is an unsigned numeral. -/
theorem numeral_of_decoded (INT : IntType) (body : UString)
    (hne : (hexPrefix body).2 ≠ [])
    (hend : (decodeLoop INT (hexPrefix body).1 [] (hexPrefix body).2 0).2 = []) :
    ∃ n, Numeral body n := by
  have dec : ∀ b : UString, b ≠ [] → (decodeLoop INT 10 [] b 0).2 = [] →
      ∃ n, Numeral b n := by
    intro b hb he
    exact ⟨_, Or.inl ⟨hb, fun c hc => (ToDigit_ten c).1.mp (decodeLoop_end INT 10 b 0 he c hc),
      rfl⟩⟩
  match body, hne, hend with
  | [], hne, _ => exact absurd rfl hne
  | [c], hne, hend => exact dec [c] hne hend
  | c0 :: c1 :: r, hne, hend =>
    by_cases hp : c0 = '0' ∧ (c1 = 'x' ∨ c1 = 'X')
    · simp only [hexPrefix, if_pos hp] at hne hend
      refine ⟨_, Or.inr ⟨c1, r, by rw [hp.1], hp.2, hne, ?_, rfl⟩⟩
      intro c hc
      exact (ToDigit_sixteen c).1.mp (decodeLoop_end INT 16 r 0 hend c hc)
    · simp only [hexPrefix, if_neg hp] at hne hend
      exact dec _ hne hend

/-- The value decoded by `toInteger` (no thousands separator) from a string that denotes the
integer `n`: success, and `n` converted to the integer type (that is, modulo `2^bits`). -/
theorem toInteger_denotes (IsSpace : Char → Bool) (INT : IntType) (s : UString) (n : Int)
    (h : Denotes IsSpace INT.is_signed s n) :
    toInteger IsSpace INT s [] = (true, INT.wrap n) := by
  unfold Denotes SignedNumeral at h
  unfold toInteger locateInteger
  generalize (s.dropWhile IsSpace).rdropWhile IsSpace = r at h ⊢
  rcases h with h | ⟨body, hr, h⟩ | ⟨body, m, hr, hs, h, hn⟩
  · obtain ⟨h1, h2, h3⟩ := numeral_decoded INT r n h
    simp [h1, h2, h3]
  · obtain ⟨_, h2, h3⟩ := numeral_decoded INT body n h
    subst hr
    simp [skipSign, h2, h3]
  · obtain ⟨_, h2, h3⟩ := numeral_decoded INT body m h
    subst hr hn
    have hneg : (-(INT.wrap m)) % INT.modulus = (-m) % INT.modulus := by
      have e : Int.ModEq INT.modulus (INT.wrap m) m := wrap_emod INT m
      exact e.neg
    have hc : ('-' : Char) ≠ '+' := by decide
    simp [skipSign, hc, hs, h2, h3, wrap_congr INT _ _ hneg]

/-- A string that `toInteger` accepts (no thousands separator) has the integer syntax. -/
theorem toInteger_accepted_form (IsSpace : Char → Bool) (INT : IntType) (s : UString)
    (h : (toInteger IsSpace INT s []).1 = true) : IntegerSyntax IsSpace INT.is_signed s := by
  unfold IntegerSyntax Denotes SignedNumeral
  unfold toInteger locateInteger at h
  generalize (s.dropWhile IsSpace).rdropWhile IsSpace = r at h ⊢
  have body_ok : ∀ (negative : Bool) (body : UString),
      (match (some (negative, body) : Option (Bool × UString)) with
        | none => ((false, 0) : Bool × Int)
        | some (negative, r) =>
          if (hexPrefix r).2 = [] then (false, 0)
          else
            let d := decodeLoop INT (hexPrefix r).1 [] (hexPrefix r).2 0
            (decide (d.2 = []), if negative then INT.wrap (-d.1) else d.1)).1 = true →
      ∃ n, Numeral body n := by
    intro negative body hb
    by_cases hne : (hexPrefix body).2 = []
    · simp [hne] at hb
    · simp only [if_neg hne, decide_eq_true_eq] at hb
      exact numeral_of_decoded INT body hne hb
  match r, h with
  | [], h => simp [skipSign, hexPrefix] at h
  | c :: r', h =>
    by_cases h1 : c = '+'
    · simp only [skipSign, if_pos h1] at h
      obtain ⟨n, hn⟩ := body_ok false r' h
      exact ⟨n, Or.inr (Or.inl ⟨r', by rw [h1], hn⟩)⟩
    · by_cases h2 : c = '-'
      · by_cases hs : INT.is_signed = true
        · simp only [skipSign, if_neg h1, if_pos h2, hs, Bool.not_true] at h
          obtain ⟨m, hm⟩ := body_ok true r' h
          exact ⟨-m, Or.inr (Or.inr ⟨r', m, by rw [h2], hs, hm, rfl⟩)⟩
        · simp [skipSign, if_neg h1, if_pos h2, hs] at h
      · simp only [skipSign, if_neg h1, if_neg h2] at h
        obtain ⟨n, hn⟩ := body_ok false (c :: r') h
        exact ⟨n, Or.inl hn⟩

/-- A string that denotes an integer of the integer type is decoded to that integer. -/
theorem toInteger_in_range (IsSpace : Char → Bool) (INT : IntType) (hb : 0 < INT.bits)
    (s : UString) (n : Int) (h : Denotes IsSpace INT.is_signed s n) (h0 : 0 ≤ n)
    (h1 : n ≤ INT.max) : toInteger IsSpace INT s [] = (true, n) := by
  rw [toInteger_denotes IsSpace INT s n h, wrap_of_le_max INT hb n h0 h1]

/-! ## `toInteger`: the accepted syntax -/

/-- C9. Accepted integer syntax: `toInteger` with no thousands separator returns true exactly
on the strings that, after removal of the leading and trailing white space, are an optional
sign (`'+'`, or `'-'` when the integer type is signed) followed by a non-empty run of decimal
digits or by `0x` or `0X` and a non-empty run of hexadecimal digits. In particular the empty
string, a lone sign, a lone `0x`, hexadecimal digits without prefix and a `'-'` for an unsigned
type are rejected. -/
theorem toInteger_accepts_iff (IsSpace : Char → Bool) (INT : IntType) (s : UString) :
    ((toInteger IsSpace INT s []).1 = true ↔ IntegerSyntax IsSpace INT.is_signed s) ∧
    (toInteger asciiSpace INT [] []).1 = false ∧
    (toInteger asciiSpace INT "+".toList []).1 = false ∧
    (toInteger asciiSpace int32 "-".toList []).1 = false ∧
    (toInteger asciiSpace INT "0x".toList []).1 = false ∧
    (toInteger asciiSpace INT "6a01".toList []).1 = false ∧
    (toInteger asciiSpace INT "ff".toList []).1 = false ∧
    (toInteger asciiSpace uint16 "-1".toList []).1 = false ∧
    (toInteger asciiSpace int32 "-1".toList []).1 = true := by
  refine ⟨⟨toInteger_accepted_form IsSpace INT s, ?_⟩, rfl, rfl, rfl, rfl, rfl, rfl, rfl, rfl⟩
  rintro ⟨n, hn⟩
  rw [toInteger_denotes IsSpace INT s n hn]

/-! ## `splitLines` -/

theorem skipSpaces_bounds (IsSpace : Char → Bool) (str : UString) (e : Nat)
    (he : e ≤ str.length) :
    e ≤ skipSpaces IsSpace str e ∧ skipSpaces IsSpace str e ≤ str.length := by
  unfold skipSpaces
  have h1 : ((str.drop e).takeWhile IsSpace).length ≤ (str.drop e).length :=
    (List.takeWhile_sublist IsSpace).length_le
  rw [List.length_drop] at h1
  omega

/-- The two outcomes of one iteration of the loop of `splitLines`: either no line is cut and
`cur` advances (the maximum width is not reached, or no end of line is known and the split is
not forced), or the maximum width is reached and a line is cut at `e`, which is `cur` or a
previous possible end of line after `start`. -/
theorem splitLinesStep_cases (IsSpace : Char → Bool) (str : UString) (maxWidth : Nat)
    (otherSeparators nextMargin : UString) (forceSplit : Bool) (st : SplitLinesState) :
    ((st.marginLength + st.cur - st.start < maxWidth ∨ forceSplit = false) ∧
      ∃ e, (e = st.cur ∨ e = st.eol) ∧
        splitLinesStep IsSpace str maxWidth otherSeparators nextMargin forceSplit st =
          { st with eol := e, cur := st.cur + 1 }) ∨
    (maxWidth ≤ st.marginLength + st.cur - st.start ∧
      ∃ e, (e = st.cur ∨ (e = st.eol ∧ st.start < e)) ∧
        splitLinesStep IsSpace str maxWidth otherSeparators nextMargin forceSplit st =
          { lines := st.lines ++
              [(if st.marginLength = 0 then [] else nextMargin) ++
                (str.drop st.start).take (e - st.start)]
            marginLength := nextMargin.length
            start := skipSpaces IsSpace str e
            eol := skipSpaces IsSpace str e
            cur := skipSpaces IsSpace str e }) := by
  unfold splitLinesStep
  by_cases hsp : IsSpace (charAt str st.cur) = true ∨
      (st.cur > st.start ∧ charAt str (st.cur - 1) ∈ otherSeparators)
  · simp only [if_pos hsp]
    by_cases hw : st.marginLength + st.cur - st.start ≥ maxWidth
    · simp only [if_pos hw]
      by_cases he : st.cur > st.start
      · simp only [if_pos he]
        exact Or.inr ⟨hw, st.cur, Or.inl rfl, rfl⟩
      · simp only [if_neg he]
        by_cases hf : forceSplit = true
        · simp only [if_pos hf]
          exact Or.inr ⟨hw, st.cur, Or.inl rfl, rfl⟩
        · simp only [if_neg hf]
          exact Or.inl ⟨Or.inr (by simpa using hf), st.cur, Or.inl rfl, by simp⟩
    · simp only [if_neg hw]
      exact Or.inl ⟨Or.inl (by omega), st.cur, Or.inl rfl, by simp⟩
  · simp only [if_neg hsp]
    by_cases hw : st.marginLength + st.cur - st.start ≥ maxWidth
    · simp only [if_pos hw]
      by_cases he : st.eol > st.start
      · simp only [if_pos he]
        exact Or.inr ⟨hw, st.eol, Or.inr ⟨rfl, he⟩, rfl⟩
      · simp only [if_neg he]
        by_cases hf : forceSplit = true
        · simp only [if_pos hf]
          exact Or.inr ⟨hw, st.cur, Or.inl rfl, rfl⟩
        · simp only [if_neg hf]
          exact Or.inl ⟨Or.inr (by simpa using hf), st.eol, Or.inr rfl, by simp⟩
    · simp only [if_neg hw]
      exact Or.inl ⟨Or.inl (by omega), st.eol, Or.inr rfl, by simp⟩

/-- Invariant rule for the loop of `splitLines`: a property `P` of the state that every
iteration keeps, while making the measure `μ` decrease, holds when the loop is left, and the
loop is left before `fuel` iterations when `μ` is below `fuel` at the start. -/
theorem splitLinesLoop_rule (IsSpace : Char → Bool) (str : UString) (maxWidth : Nat)
    (otherSeparators nextMargin : UString) (forceSplit : Bool)
    (P : SplitLinesState → Prop) (μ : SplitLinesState → Nat)
    (hstep : ∀ st, P st → st.cur < str.length →
      P (splitLinesStep IsSpace str maxWidth otherSeparators nextMargin forceSplit st) ∧
      μ (splitLinesStep IsSpace str maxWidth otherSeparators nextMargin forceSplit st) < μ st)
    (fuel : Nat) (st : SplitLinesState) (h0 : P st) (hμ : μ st < fuel) :
    ∃ st', splitLinesLoop IsSpace str maxWidth otherSeparators nextMargin forceSplit fuel st
        = some st' ∧ P st' ∧ ¬ st'.cur < str.length := by
  induction fuel generalizing st with
  | zero => omega
  | succ fuel ih =>
    by_cases hc : st.cur < str.length
    · simp only [splitLinesLoop, if_pos hc]
      obtain ⟨hP, hlt⟩ := hstep st h0 hc
      exact ih _ hP (by omega)
    · simp only [splitLinesLoop, if_neg hc]
      exact ⟨st, rfl, h0, hc⟩

/-- Measure of the progress of the loop of `splitLines`. -/
theorem splitLines_measure_cut (L s s' c : Nat) (h1 : s < s') (h2 : s' ≤ L) :
    (L - s') * (L + 1) + (L - s') < (L - s) * (L + 1) + (L - c) := by
  have h3 : (L - s') + 1 ≤ L - s := by omega
  have h4 : ((L - s') + 1) * (L + 1) ≤ (L - s) * (L + 1) := Nat.mul_le_mul_right _ h3
  have h5 : ((L - s') + 1) * (L + 1) = (L - s') * (L + 1) + (L + 1) := by ring
  omega

/-- Every iteration of the loop of `splitLines` keeps the invariant on the positions and makes
the bound on the remaining iterations decrease. -/
theorem splitLinesStep_positions (IsSpace : Char → Bool) (str : UString) (maxWidth : Nat)
    (otherSeparators nextMargin : UString) (forceSplit : Bool)
    (hm : nextMargin.length < maxWidth) (st : SplitLinesState)
    (h : st.positionsOk str maxWidth) (hc : st.cur < str.length) :
    (splitLinesStep IsSpace str maxWidth otherSeparators nextMargin forceSplit st).positionsOk
      str maxWidth ∧
    (splitLinesStep IsSpace str maxWidth otherSeparators nextMargin forceSplit st).remaining str
      < st.remaining str := by
  obtain ⟨h1, h2, h3, h4⟩ := h
  rcases splitLinesStep_cases IsSpace str maxWidth otherSeparators nextMargin forceSplit st with
    ⟨_, e, he, hst⟩ | ⟨hw, e, he, hst⟩
  · rw [hst]
    simp only [SplitLinesState.positionsOk, SplitLinesState.remaining]
    refine ⟨⟨by omega, by omega, by omega, h4⟩, by omega⟩
  · rw [hst]
    have hes : st.start < e ∧ e ≤ st.cur := by
      rcases he with he | ⟨he, hlt⟩
      · omega
      · omega
    obtain ⟨hk1, hk2⟩ := skipSpaces_bounds IsSpace str e (by omega)
    simp only [SplitLinesState.positionsOk, SplitLinesState.remaining]
    refine ⟨⟨le_refl _, hk2, le_refl _, hm⟩, ?_⟩
    exact splitLines_measure_cut _ _ _ _ (by omega) hk2

/-- The loop of `splitLines` is left before `(length() + 1)^2` iterations, for every input on
which it is entered (a margin shorter than the maximum width). -/
theorem splitLinesLoop_terminates (IsSpace : Char → Bool) (str : UString) (maxWidth : Nat)
    (otherSeparators nextMargin : UString) (forceSplit : Bool)
    (hm : nextMargin.length < maxWidth) :
    ∃ st, splitLinesLoop IsSpace str maxWidth otherSeparators nextMargin forceSplit
      ((str.length + 1) * (str.length + 1))
      { lines := [], marginLength := 0, start := 0, eol := 0, cur := 0 } = some st := by
  obtain ⟨st, hst, _⟩ := splitLinesLoop_rule IsSpace str maxWidth otherSeparators nextMargin
    forceSplit (fun st => st.positionsOk str maxWidth) (fun st => st.remaining str)
    (fun st h hc => splitLinesStep_positions IsSpace str maxWidth otherSeparators nextMargin
      forceSplit hm st h hc)
    ((str.length + 1) * (str.length + 1))
    { lines := [], marginLength := 0, start := 0, eol := 0, cur := 0 }
    ⟨le_refl _, Nat.zero_le _, le_refl _, by show 0 < maxWidth; omega⟩
    (by
      simp only [SplitLinesState.remaining, Nat.sub_zero]
      have : (str.length + 1) * (str.length + 1)
          = str.length * (str.length + 1) + str.length + 1 := by ring
      omega)
  exact ⟨st, hst⟩

/-- With a forced split, every iteration of the loop of `splitLines` keeps the invariant on the
widths. -/
theorem splitLinesStep_widths (IsSpace : Char → Bool) (str : UString) (maxWidth : Nat)
    (otherSeparators nextMargin : UString) (hm : nextMargin.length < maxWidth)
    (st : SplitLinesState) (h : st.positionsOk str maxWidth)
    (hw : st.widthsOk maxWidth nextMargin) :
    (splitLinesStep IsSpace str maxWidth otherSeparators nextMargin true st).widthsOk
      maxWidth nextMargin := by
  obtain ⟨h1, h2, h3, h4⟩ := h
  obtain ⟨w1, w2, w3⟩ := hw
  rcases splitLinesStep_cases IsSpace str maxWidth otherSeparators nextMargin true st with
    ⟨hno, e, he, hst⟩ | ⟨hr, e, he, hst⟩
  · rw [hst]
    have hlt : st.marginLength + st.cur - st.start < maxWidth := by
      rcases hno with hno | hno
      · exact hno
      · cases hno
    simp only [SplitLinesState.widthsOk]
    refine ⟨by omega, w2, w3⟩
  · rw [hst]
    have hes : st.start < e ∧ e ≤ st.cur := by
      rcases he with he | ⟨he, hlt⟩
      · omega
      · omega
    simp only [SplitLinesState.widthsOk]
    refine ⟨by omega, Or.inl trivial, ?_⟩
    intro l hl
    rcases List.mem_append.mp hl with hl | hl
    · exact w3 l hl
    · rw [List.mem_singleton] at hl
      subst hl
      have hpre : (if st.marginLength = 0 then ([] : UString) else nextMargin).length
          = st.marginLength := by
        by_cases hz : st.marginLength = 0
        · rw [if_pos hz, hz]; rfl
        · rw [if_neg hz]
          rcases w2 with w2 | w2
          · exact w2.symm
          · exact absurd w2.1 hz
      rw [List.length_append, hpre, List.length_take]
      have := Nat.min_le_left (e - st.start) (List.drop st.start str).length
      omega

/-- C10. Line width bound: with a margin for the next lines shorter than the maximum width and
a forced split, `splitLines` returns, and every line that it produces, margin included, has at
most `maxWidth` characters. -/
theorem splitLines_width_bound (IsSpace : Char → Bool) (str : UString) (maxWidth : Nat)
    (otherSeparators nextMargin : UString) (hm : nextMargin.length < maxWidth) :
    ∃ lines, splitLines IsSpace str maxWidth otherSeparators nextMargin true = some lines ∧
      ∀ l ∈ lines, l.length ≤ maxWidth := by
  unfold splitLines
  by_cases hearly : str.length ≤ maxWidth ∨ nextMargin.length ≥ maxWidth
  · rw [if_pos hearly]
    refine ⟨[str], rfl, ?_⟩
    intro l hl
    rw [List.mem_singleton] at hl
    subst hl
    rcases hearly with h | h
    · exact h
    · omega
  · rw [if_neg hearly]
    obtain ⟨st, hst, ⟨⟨p1, p2, p3, p4⟩, w1, w2, w3⟩, hend⟩ :=
      splitLinesLoop_rule IsSpace str maxWidth otherSeparators nextMargin true
        (fun st => st.positionsOk str maxWidth ∧ st.widthsOk maxWidth nextMargin)
        (fun st => st.remaining str)
        (fun st h hc =>
          ⟨⟨(splitLinesStep_positions IsSpace str maxWidth otherSeparators nextMargin true hm
              st h.1 hc).1,
            splitLinesStep_widths IsSpace str maxWidth otherSeparators nextMargin hm st h.1 h.2⟩,
           (splitLinesStep_positions IsSpace str maxWidth otherSeparators nextMargin true hm
              st h.1 hc).2⟩)
        ((str.length + 1) * (str.length + 1))
        { lines := [], marginLength := 0, start := 0, eol := 0, cur := 0 }
        ⟨⟨le_refl _, Nat.zero_le _, le_refl _, by show 0 < maxWidth; omega⟩,
          by show 0 + (0 - 0) ≤ maxWidth; omega, Or.inr ⟨rfl, rfl⟩,
          fun l hl => by cases hl⟩
        (by
          simp only [SplitLinesState.remaining, Nat.sub_zero]
          have : (str.length + 1) * (str.length + 1)
              = str.length * (str.length + 1) + str.length + 1 := by ring
          omega)
    rw [hst]
    refine ⟨_, rfl, ?_⟩
    by_cases hrest : st.start < str.length
    · rw [if_pos hrest]
      intro l hl
      rcases List.mem_append.mp hl with hl | hl
      · exact w3 l hl
      · rw [List.mem_singleton] at hl
        subst hl
        rw [List.length_append, List.length_drop]
        rcases w2 with w2 | w2
        · omega
        · omega
    · rw [if_neg hrest]
      exact w3

theorem splitLines_width_bound_witness :
    "  ".toList.length < 10 ∧
    splitLines asciiSpace "The quick brown fox jumps".toList 10 [] "  ".toList true =
      some ["The quick".toList, "  brown".toList, "  fox".toList, "  jumps".toList] ∧
    ∃ lines, splitLines asciiSpace "The quick brown fox jumps".toList 10 [] "  ".toList true
        = some lines ∧ ∀ l ∈ lines, l.length ≤ 10 :=
  ⟨by decide, by decide,
    splitLines_width_bound asciiSpace "The quick brown fox jumps".toList 10 [] "  ".toList
      (by decide)⟩

/-- C11, the code fails it: when the string is longer than `maxWidth`, has no possible end of
line and the split is not forced, the loop cuts no line and the statement "Rest of string on
last line" pushes `nextMargin + substr(start)` with `start = 0`: the only line, which is the
first one, carries the margin. The lines cut inside the loop test `marginLength == 0` and
leave the margin out of the first line, as the comment "No margin on first line" announces. -/
theorem splitLines_margin_on_first_line :
    splitLines asciiSpace "aaaaaaaaaaaaaaaaaaaaaaaaa".toList 10 [] "  ".toList false =
      some ["  aaaaaaaaaaaaaaaaaaaaaaaaa".toList] ∧
    splitLines asciiSpace "aaaaaaaaaaaaaaaaaaaaaaaaa".toList 10 [] "  ".toList true =
      some ["aaaaaaaaaa".toList, "  aaaaaaaa".toList, "  aaaaaaa".toList] := by
  decide

/-! ## `split` -/

theorem pushSegment_container (IsSpace : Char → Bool) (trimSpaces removeEmpty : Bool)
    (container : List UString) (segment : UString) :
    pushSegment IsSpace trimSpaces removeEmpty container segment =
      container ++ pushSegment IsSpace trimSpaces removeEmpty [] segment := by
  unfold pushSegment
  simp only
  split <;> split <;> simp

/-- The segments that `split` adds do not depend on the content of the container. -/
theorem splitLoop_container (IsSpace : Char → Bool) (separator : Char)
    (trimSpaces removeEmpty : Bool) (r segment : UString) (container : List UString) :
    splitLoop IsSpace separator trimSpaces removeEmpty r segment container =
      container ++ splitLoop IsSpace separator trimSpaces removeEmpty r segment [] := by
  induction r generalizing segment container with
  | nil =>
    simp only [splitLoop]
    exact pushSegment_container _ _ _ _ _
  | cons x r ih =>
    simp only [splitLoop]
    split
    · exact pushSegment_container _ _ _ _ _
    · split
      · rw [ih [] (pushSegment _ _ _ container segment), ih [] (pushSegment _ _ _ [] segment),
          pushSegment_container, List.append_assoc]
      · exact ih _ _

/-- On a string without NUL, the loops of `split` (no trimming, empty segments kept) compute
the splitting of the library at the separator. -/
theorem splitLoop_eq_splitOnP (IsSpace : Char → Bool) (separator : Char) (r segment : UString)
    (hr : Char.ofNat 0 ∉ r) :
    splitLoop IsSpace separator false false r segment [] =
      List.splitOnP.go (fun x => x == separator) r segment.reverse := by
  induction r generalizing segment with
  | nil => simp [splitLoop, pushSegment, List.splitOnP.go]
  | cons x r ih =>
    have hx : ¬ x = Char.ofNat 0 := fun e => hr (by rw [e]; exact List.mem_cons_self _ _)
    have hr2 : Char.ofNat 0 ∉ r := fun h => hr (List.mem_cons_of_mem _ h)
    simp only [splitLoop, if_neg hx, List.splitOnP.go]
    by_cases hc : x = separator
    · rw [if_pos hc, splitLoop_container, ih [] hr2]
      simp [pushSegment, hc]
    · rw [if_neg hc, ih _ hr2]
      simp [hc]

/-- No segment of `split` contains the separator. -/
theorem splitLoop_no_separator (IsSpace : Char → Bool) (separator : Char) (r segment : UString)
    (hseg : separator ∉ segment) :
    ∀ p ∈ splitLoop IsSpace separator false false r segment [], separator ∉ p := by
  induction r generalizing segment with
  | nil =>
    intro p hp
    simp only [splitLoop, pushSegment] at hp
    simp at hp
    rw [hp]; exact hseg
  | cons x r ih =>
    intro p hp
    simp only [splitLoop] at hp
    split at hp
    · simp only [pushSegment] at hp
      simp at hp
      rw [hp]; exact hseg
    · split at hp
      · rw [splitLoop_container] at hp
        rcases List.mem_append.mp hp with h | h
        · simp only [pushSegment] at h
          simp at h
          rw [h]; exact hseg
        · exact ih [] (List.not_mem_nil _) p h
      · rename_i hne
        refine ih (segment ++ [x]) ?_ p hp
        intro h
        rcases List.mem_append.mp h with h | h
        · exact hseg h
        · rw [List.mem_singleton] at h
          exact hne h.symm

/-- Number of segments of `split`: one more than the occurrences of the separator. -/
theorem splitLoop_length (IsSpace : Char → Bool) (separator : Char) (r segment : UString)
    (hr : Char.ofNat 0 ∉ r) :
    (splitLoop IsSpace separator false false r segment []).length = r.count separator + 1 := by
  induction r generalizing segment with
  | nil => simp [splitLoop, pushSegment]
  | cons x r ih =>
    have hx : ¬ x = Char.ofNat 0 := fun e => hr (by rw [e]; exact List.mem_cons_self _ _)
    have hr2 : Char.ofNat 0 ∉ r := fun h => hr (List.mem_cons_of_mem _ h)
    simp only [splitLoop, if_neg hx]
    by_cases hc : x = separator
    · rw [if_pos hc, splitLoop_container, List.length_append, ih [] hr2, hc,
        List.count_cons_self]
      simp [pushSegment]
      omega
    · rw [if_neg hc, ih _ hr2, List.count_cons_of_ne (fun h => hc h.symm)]

/-- With `removeEmpty`, `split` gives the segments that are not empty. -/
theorem splitLoop_removeEmpty (IsSpace : Char → Bool) (separator : Char) (r segment : UString) :
    splitLoop IsSpace separator false true r segment [] =
      (splitLoop IsSpace separator false false r segment []).filter (fun p => !p.isEmpty) := by
  have hpush : ∀ seg : UString, pushSegment IsSpace false true [] seg =
      (pushSegment IsSpace false false [] seg).filter (fun p => !p.isEmpty) := by
    intro seg
    cases seg <;> simp [pushSegment]
  induction r generalizing segment with
  | nil => simp only [splitLoop]; exact hpush _
  | cons x r ih =>
    simp only [splitLoop]
    split
    · exact hpush _
    · split
      · rw [splitLoop_container IsSpace separator false true,
          splitLoop_container IsSpace separator false false, ih [],
          List.filter_append, hpush]
      · exact ih _

/-- C12. `split` equals the reference splitting: on a string without NUL, with no trimming and
empty segments kept, the segments are those of the splitting of the library (`List.splitOn`):
joined with the separator they give the string back, none contains the separator, and their
number is the number of occurrences of the separator plus one; the empty string gives one
empty segment; with `removeEmpty` the result is the same list without its empty segments. -/
theorem split_reference (IsSpace : Char → Bool) (s : UString) (c : Char)
    (hs : Char.ofNat 0 ∉ s) :
    split IsSpace s c false false = s.splitOn c ∧
    [c].intercalate (split IsSpace s c false false) = s ∧
    (∀ p ∈ split IsSpace s c false false, c ∉ p) ∧
    (split IsSpace s c false false).length = s.count c + 1 ∧
    split IsSpace [] c false false = [[]] ∧
    split IsSpace s c false true =
      (split IsSpace s c false false).filter (fun p => !p.isEmpty) := by
  have h1 : split IsSpace s c false false = s.splitOn c := by
    unfold split
    rw [splitLoop_eq_splitOnP IsSpace c s [] hs]
    rfl
  refine ⟨h1, ?_, ?_, ?_, rfl, ?_⟩
  · rw [h1]; exact List.intercalate_splitOn s c
  · exact splitLoop_no_separator IsSpace c s [] (List.not_mem_nil _)
  · exact splitLoop_length IsSpace c s [] hs
  · exact splitLoop_removeEmpty IsSpace c s []

theorem split_reference_witness :
    split asciiSpace "a/b//c".toList '/' false false = "a/b//c".toList.splitOn '/' ∧
    ['/'].intercalate (split asciiSpace "a/b//c".toList '/' false false) = "a/b//c".toList ∧
    (∀ p ∈ split asciiSpace "a/b//c".toList '/' false false, '/' ∉ p) ∧
    (split asciiSpace "a/b//c".toList '/' false false).length
      = "a/b//c".toList.count '/' + 1 ∧
    split asciiSpace [] '/' false false = [[]] ∧
    split asciiSpace "a/b//c".toList '/' false true =
      (split asciiSpace "a/b//c".toList '/' false false).filter (fun p => !p.isEmpty) :=
  split_reference asciiSpace "a/b//c".toList '/' (by decide)

/-! ## `Join` -/

theorem intercalate_cons_eq (sep x : UString) (r : List UString) :
    sep.intercalate (x :: r) = x ++ (r.map (fun y => sep ++ y)).flatten := by
  induction r generalizing x with
  | nil => simp [List.intercalate]
  | cons y r ih =>
    have h := ih y
    simp only [List.intercalate, List.intersperse, List.flatten_cons, List.map_cons] at h ⊢
    rw [h, List.append_assoc]

/-- The loop of `Join` from a value that is not empty: every further element is appended after
a separator. -/
theorem JoinLoop_of_ne_nil (sep : UString) (l : List UString) (res : UString) (h : res ≠ []) :
    JoinLoop sep l res = res ++ (l.map (fun y => sep ++ y)).flatten := by
  induction l generalizing res with
  | nil => simp [JoinLoop]
  | cons x r ih =>
    have hne : res.isEmpty = false := by cases res <;> simp_all
    simp only [JoinLoop, hne, Bool.not_false, if_true]
    rw [ih _ (by simp [h])]
    simp [List.append_assoc]

/-- The loop of `Join` from the empty value: the empty elements at the head of the sequence
leave the value empty and are followed by no separator. -/
theorem JoinLoop_nil (sep : UString) (l : List UString) :
    JoinLoop sep l [] = sep.intercalate (l.dropWhile (fun x => x.isEmpty)) := by
  induction l with
  | nil => simp [JoinLoop, List.intercalate]
  | cons x r ih =>
    by_cases hx : x = []
    · subst hx
      simp only [JoinLoop, List.isEmpty_nil, Bool.not_true, Bool.false_eq_true, if_false,
        List.append_nil, List.dropWhile_cons, if_true]
      exact ih
    · have hne : x.isEmpty = false := by cases x <;> simp_all
      simp only [JoinLoop, List.isEmpty_nil, Bool.not_true, Bool.false_eq_true, if_false,
        List.nil_append, List.dropWhile_cons, hne]
      rw [JoinLoop_of_ne_nil sep r x hx, intercalate_cons_eq]

/-- C13, as stated, fails: no separator follows an empty element at the head of the sequence,
`Join` of `""` and `"a"` with `","` is `"a"`, not `",a"` (one separator for two elements). -/
theorem Join_leading_empty :
    Join ["".toList, "a".toList] ",".toList = "a".toList ∧
    ",".toList.intercalate ["".toList, "a".toList] = ",a".toList ∧
    Join ["".toList, "".toList, "a".toList, "".toList, "b".toList] ",".toList
      = "a,,b".toList := by
  decide

/-- C13, amended: `Join` returns the elements from the first one that is not empty on,
concatenated in order with the separator between each pair of consecutive elements (the empty
elements at the head of the sequence are skipped, without separator). When the first element is
not empty this is the concatenation of the `n` elements with `n - 1` separators, and the
empty string for `n = 0`. -/
theorem Join_intercalate (l : List UString) (separator : UString) :
    Join l separator = separator.intercalate (l.dropWhile (fun x => x.isEmpty)) ∧
    (∀ x r, l = x :: r → x ≠ [] → Join l separator = separator.intercalate l) ∧
    Join [] separator = [] := by
  refine ⟨JoinLoop_nil separator l, ?_, rfl⟩
  intro x r hl hx
  have hne : x.isEmpty = false := by cases x <;> simp_all
  unfold Join
  rw [JoinLoop_nil, hl, List.dropWhile_cons, hne]
  rfl

theorem Join_intercalate_witness :
    Join ["a".toList, "".toList, "b".toList] ", ".toList = "a, , b".toList :=
  ((Join_intercalate ["a".toList, "".toList, "b".toList] ", ".toList).2.1
    "a".toList ["".toList, "b".toList] rfl (by decide)).trans (by decide)

/-! ## `Hexa` -/

theorem hexa_char (use_upper : Bool) :
    ∀ d, d < 16 →
      (if d < 10 then Char.ofNat (48 + d)
        else if use_upper = true then Char.ofNat (65 + (d - 10))
        else Char.ofNat (97 + (d - 10))) = hexDigit use_upper d := by
  cases use_upper <;> decide

/-- The loop of `Hexa` without separator appends the digits of `value`, the low-order digit
first, one for each unit of `width`. -/
theorem hexaLoop_digits (use_upper : Bool) (width value count : Nat) (s : UString) :
    hexaLoop [] use_upper width value count s =
      s ++ (List.range width).map (fun i => hexDigit use_upper (value / 16 ^ i % 16)) := by
  induction width generalizing value count s with
  | zero => simp [hexaLoop]
  | succ w ih =>
    have hn : value &&& 0xF = value % 16 := Nat.and_pow_two_sub_one_eq_mod value 4
    have hs : value >>> 4 = value / 16 := Nat.shiftRight_eq_div_pow value 4
    simp only [hexaLoop, List.append_nil, ite_self]
    rw [ih, hn, hs, hexa_char use_upper (value % 16) (Nat.mod_lt _ (by norm_num)),
      List.range_succ_eq_map, List.map_cons, List.map_map, List.append_assoc]
    have hd : ∀ i, value / 16 / 16 ^ i = value / 16 ^ (i + 1) := by
      intro i
      rw [Nat.div_div_eq_div_mul, Nat.pow_succ, Nat.mul_comm]
    simp [hd]

/-- C15. Hexadecimal formatting without separator: the optional prefix `0x` followed by
exactly `n` hexadecimal digits, `w / 4` digits when `n = 0` for a type of `w` bits (a whole
number of bytes), which are the `n` low-order digits of the value, most significant first,
with upper case letters when `use_upper` holds and lower case letters otherwise. -/
theorem Hexa_digits (INT : IntType) (v n : Nat) ( use_prefix use_upper : Bool)
    (hbytes : INT.bits % 8 = 0) :
    Hexa INT v n [] use_prefix use_upper =
      (if use_prefix then ['0', 'x'] else []) ++
        lowHexDigits use_upper v (if n = 0 then INT.bits / 4 else n) ∧
    (lowHexDigits use_upper v (if n = 0 then INT.bits / 4 else n)).length =
      (if n = 0 then INT.bits / 4 else n) ∧
    Hexa uint16 0x1a2b 0 [] true false = "0x1a2b".toList ∧
    Hexa uint16 0x1a2b 2 [] false true = "2B".toList ∧
    Hexa uint16 0x1a2b 6 [] true true = "0x001A2B".toList := by
  have hw : 2 * (INT.bits / 8) = INT.bits / 4 := by omega
  refine ⟨?_, by simp [lowHexDigits], by decide, by decide, by decide⟩
  unfold Hexa lowHexDigits
  simp only [List.reverse_nil, hexaLoop_digits, List.nil_append, hw]
  cases use_prefix <;> simp [List.map_reverse]

theorem Hexa_digits_witness :
    Hexa uint32 0xDEADBEEF 0 [] true true =
      (if true then ['0', 'x'] else []) ++
        lowHexDigits true 0xDEADBEEF (if 0 = 0 then uint32.bits / 4 else 0) ∧
    (lowHexDigits true 0xDEADBEEF (if 0 = 0 then uint32.bits / 4 else 0)).length =
      (if 0 = 0 then uint32.bits / 4 else 0) ∧
    Hexa uint16 0x1a2b 0 [] true false = "0x1a2b".toList ∧
    Hexa uint16 0x1a2b 2 [] false true = "2B".toList ∧
    Hexa uint16 0x1a2b 6 [] true true = "0x001A2B".toList :=
  Hexa_digits uint32 0xDEADBEEF 0 true true (by decide)

/-! ## Decimal representation -/

theorem toDigitsCore_append (fuel n : Nat) (ds : List Char) :
    Nat.toDigitsCore 10 fuel n ds = Nat.toDigitsCore 10 fuel n [] ++ ds := by
  induction fuel generalizing n ds with
  | zero => simp [Nat.toDigitsCore]
  | succ f ih =>
    simp only [Nat.toDigitsCore]
    split
    · simp
    · rw [ih (n / 10) (_ :: ds), ih (n / 10) [_]]
      simp

/-- The digits do not depend on the fuel, once it exceeds the number. -/
theorem toDigitsCore_fuel (fuel1 fuel2 n : Nat) (h1 : n < fuel1) (h2 : n < fuel2) :
    Nat.toDigitsCore 10 fuel1 n [] = Nat.toDigitsCore 10 fuel2 n [] := by
  induction fuel1 generalizing fuel2 n with
  | zero => omega
  | succ f ih =>
    obtain ⟨g, rfl⟩ : ∃ g, fuel2 = g + 1 := ⟨fuel2 - 1, by omega⟩
    simp only [Nat.toDigitsCore]
    split
    · rfl
    · rename_i hq
      rw [toDigitsCore_append f, toDigitsCore_append g,
        ih g (n / 10) (by omega) (by omega)]

theorem toDigits_of_lt_ten (n : Nat) (h : n < 10) : Nat.toDigits 10 n = [Nat.digitChar n] := by
  have hq : n / 10 = 0 := by omega
  have hm : n % 10 = n := by omega
  simp [Nat.toDigits, Nat.toDigitsCore, hq, hm]

/-- The decimal representation of a number of two digits or more: that of its quotient by
ten, followed by its last digit. -/
theorem toDigits_of_ten_le (n : Nat) (h : 10 ≤ n) :
    Nat.toDigits 10 n = Nat.toDigits 10 (n / 10) ++ [Nat.digitChar (n % 10)] := by
  have hq : ¬ n / 10 = 0 := by omega
  have hn : Nat.toDigits 10 n = Nat.toDigitsCore 10 n (n / 10) [Nat.digitChar (n % 10)] := by
    simp only [Nat.toDigits, Nat.toDigitsCore, if_neg hq]
  have hd : Nat.toDigits 10 (n / 10) = Nat.toDigitsCore 10 (n / 10 + 1) (n / 10) [] := rfl
  rw [hn, hd, toDigitsCore_append,
    toDigitsCore_fuel n (n / 10 + 1) (n / 10) (by omega) (by omega)]

theorem toDigits_ne_nil (n : Nat) : Nat.toDigits 10 n ≠ [] := by
  by_cases h : n < 10
  · rw [toDigits_of_lt_ten n h]; simp
  · rw [toDigits_of_ten_le n (by omega)]; simp

theorem digitChar_decimal : ∀ d, d < 10 →
    isDecDigit (Nat.digitChar d) = true ∧ digitValue (Nat.digitChar d) = (d : Int) ∧
    toUChar (48 + (d : Int)) = Nat.digitChar d := by
  decide

/-- Every character of the decimal representation is a decimal digit. -/
theorem toDigits_isDecDigit (n : Nat) : ∀ c ∈ Nat.toDigits 10 n, isDecDigit c = true := by
  induction n using Nat.strong_induction_on with
  | _ n ih =>
    by_cases h : n < 10
    · rw [toDigits_of_lt_ten n h]
      intro c hc
      rw [List.mem_singleton] at hc
      rw [hc]; exact (digitChar_decimal n h).1
    · rw [toDigits_of_ten_le n (by omega)]
      intro c hc
      rcases List.mem_append.mp hc with hc | hc
      · exact ih (n / 10) (by omega) c hc
      · rw [List.mem_singleton] at hc
        rw [hc]; exact (digitChar_decimal (n % 10) (Nat.mod_lt _ (by norm_num))).1

theorem numeralValue_append (base : Int) (l : UString) (c : Char) (v : Int) :
    numeralValue base (l ++ [c]) v = numeralValue base l v * base + digitValue c := by
  induction l generalizing v with
  | nil => simp [numeralValue]
  | cons x l ih => simp only [List.cons_append, numeralValue]; exact ih _

/-- The decimal representation of a number writes this number. -/
theorem numeralValue_toDigits (n : Nat) : numeralValue 10 (Nat.toDigits 10 n) 0 = (n : Int) := by
  induction n using Nat.strong_induction_on with
  | _ n ih =>
    by_cases h : n < 10
    · rw [toDigits_of_lt_ten n h]
      simp [numeralValue, (digitChar_decimal n h).2.1]
    · rw [toDigits_of_ten_le n (by omega), numeralValue_append, ih (n / 10) (by omega),
        (digitChar_decimal (n % 10) (Nat.mod_lt _ (by norm_num))).2.1]
      omega

/-! ## `Decimal` -/

theorem groupDigitsAfter_zero (sep ds : UString) :
    groupDigitsAfter sep 0 ds = groupDigits sep ds := by
  induction ds with
  | nil => rfl
  | cons d r ih => simp only [groupDigitsAfter, groupDigits, Nat.add_zero, ih]

/-- Grouping of a list of digits followed by one more digit. -/
theorem groupDigitsAfter_append (sep : UString) (c : Nat) (ds : UString) (d : Char) :
    groupDigitsAfter sep c (ds ++ [d]) =
      groupDigitsAfter sep (c + 1) ds ++
        (if (c + 1) % 3 = 0 ∧ ds ≠ [] then sep else []) ++ [d] := by
  induction ds with
  | nil => simp [groupDigitsAfter]
  | cons x r ih =>
    have hlen : (r ++ [d]).length + c = r.length + (c + 1) := by
      simp only [List.length_append, List.length_cons, List.length_nil]; omega
    have h1 : r ++ [d] ≠ [] := by simp
    have h2 : x :: r ≠ [] := by simp
    simp only [List.cons_append, groupDigitsAfter, List.append_eq]
    rw [ih]
    simp only [hlen, h1, h2, ne_eq, not_false_eq_true, true_and, and_true]
    by_cases hr : r = []
    · subst hr
      simp [groupDigitsAfter]
    · simp only [hr, not_false_eq_true, true_and, and_true]
      simp

/-- The loop of `Decimal` on a positive value: it is left before the iterations are used up,
and it has appended, in reverse order, the decimal digits of the value grouped by three, `count`
digits standing already in the string. -/
theorem decimalLoop_digits (sep : UString) (n : Nat) :
    ∀ (fuel : Nat) (s : UString) (count : Nat), 0 < n → n < fuel →
      decimalLoop sep.reverse fuel s (n : Int) count =
        some (s ++ (groupDigitsAfter sep count (Nat.toDigits 10 n)).reverse) := by
  induction n using Nat.strong_induction_on with
  | _ n ih =>
    intro fuel s count hpos hfuel
    obtain ⟨f, rfl⟩ : ∃ f, fuel = f + 1 := ⟨fuel - 1, by omega⟩
    have hne : (n : Int) ≠ 0 := by omega
    have hdiv : (n : Int).tdiv 10 = ((n / 10 : Nat) : Int) := (Int.ofNat_tdiv n 10).symm
    have hmod : (n : Int).tmod 10 = ((n % 10 : Nat) : Int) := (Int.ofNat_tmod n 10).symm
    have hch := (digitChar_decimal (n % 10) (Nat.mod_lt _ (by norm_num))).2.2
    simp only [decimalLoop, if_pos hne, hdiv, hmod, hch]
    by_cases h : n < 10
    · have hq : n / 10 = 0 := by omega
      have hm : n % 10 = n := by omega
      have hend : ∀ t : UString, decimalLoop sep.reverse f t ((0 : Nat) : Int) (count + 1)
          = some t := by
        intro t
        cases f <;> simp [decimalLoop]
      rw [hq, hm, toDigits_of_lt_ten n h]
      simp only [Nat.cast_zero, ne_eq, not_true_eq_false, and_false, if_false]
      rw [show ((0 : Int)) = ((0 : Nat) : Int) from rfl, hend]
      simp [groupDigitsAfter]
    · have hq : ((n / 10 : Nat) : Int) ≠ 0 := by omega
      rw [ih (n / 10) (by omega) f _ (count + 1) (by omega) (by omega),
        toDigits_of_ten_le n (by omega), groupDigitsAfter_append]
      by_cases h3 : (count + 1) % 3 = 0
      · rw [if_pos ⟨h3, hq⟩, if_pos ⟨h3, toDigits_ne_nil _⟩]
        simp
      · rw [if_neg (fun h => h3 h.1), if_neg (fun h => h3 h.1)]
        simp

theorem padTo_length (w : Nat) (left : Bool) (pad : Char) (s : UString) :
    (padTo w left pad s).length = max w s.length := by
  unfold padTo
  cases left <;> simp <;> omega

/-- The result of `Decimal` without forced sign, for a value the absolute value of which is a
value of the integer type. -/
theorem Decimal_eq (INT : IntType) (value : Int) (w : Nat) (right_justified : Bool)
    (sep : UString) (pad : Char) (hbits : 0 < INT.bits)
    (hrange : (value.natAbs : Int) ≤ INT.max) :
    Decimal INT value w right_justified sep false pad =
      some (padTo w right_justified pad
        ((if value < 0 then ['-'] else []) ++ groupDigits sep (decimalDigits value.natAbs))) := by
  have hpad : ∀ t : UString,
      (if t.length < w then
        if right_justified = true then List.replicate (w - t.length) pad ++ t
        else t ++ List.replicate (w - t.length) pad
      else t) = padTo w right_justified pad t := by
    intro t
    unfold padTo
    by_cases hl : t.length < w
    · rw [if_pos hl]
    · rw [if_neg hl]
      have : w - t.length = 0 := by omega
      cases right_justified <;> simp [this]
  have hloop : ∀ n : Nat, 0 < n →
      decimalLoop sep.reverse (((n : Nat) : Int).natAbs + 1) [] (n : Int) 0 =
        some (groupDigits sep (Nat.toDigits 10 n)).reverse := by
    intro n hn
    rw [decimalLoop_digits sep n _ [] 0 hn (by simp), groupDigitsAfter_zero]
    rfl
  unfold Decimal decimalDigits
  rcases lt_trichotomy value 0 with hneg | hzero | hpos
  · have hn : (decide (value ≠ 0) && decide (value < 1)) = true := by
      simp only [Bool.and_eq_true, decide_eq_true_eq]
      exact ⟨by omega, by omega⟩
    have habs : -value = ((value.natAbs : Nat) : Int) := by omega
    have hw : INT.wrap (-value) = ((value.natAbs : Nat) : Int) := by
      rw [habs]
      exact wrap_of_le_max INT hbits _ (by omega) hrange
    have hnz : ¬ ((value.natAbs : Nat) : Int) = 0 := by omega
    simp only [hn, if_true, hw, if_neg hnz]
    rw [hloop value.natAbs (by omega)]
    simp only [List.reverse_append, List.reverse_reverse, List.reverse_cons, List.reverse_nil,
      List.nil_append, hpad, if_pos hneg]
  · subst hzero
    have hz : groupDigits sep (Nat.toDigits 10 (Int.natAbs 0)) = ['0'] := rfl
    rw [hz, ← hpad]
    simp
  · have hn : (decide (value ≠ 0) && decide (value < 1)) = false := by
      simp only [Bool.and_eq_false_iff, decide_eq_false_iff_not]
      exact Or.inr (by omega)
    have habs : value = ((value.natAbs : Nat) : Int) := by omega
    have hnz : ¬ value = 0 := by omega
    have hnn : ¬ value < 0 := by omega
    simp only [hn, Bool.false_eq_true, if_false, if_neg hnz, if_neg hnn, List.nil_append]
    rw [habs, hloop value.natAbs (by omega)]
    simp only [List.reverse_reverse, hpad, Int.natAbs_ofNat]

theorem padTo_zero (left : Bool) (pad : Char) (s : UString) : padTo 0 left pad s = s := by
  unfold padTo
  cases left <;> simp

/-- C14. Decimal formatting with digit grouping: for a value the absolute value of which is a
value of the integer type (every value but the minimum of a signed type), `Decimal(value, 0,
true, sep, false)` returns `'-'` when the value is negative, followed by the plain decimal
digits of `|value|` with `sep` after each digit that is followed by a positive multiple of
three digits (`1234567` with `","` gives `"1,234,567"`, `0` gives `"0"`); with `min_width = w`
this result is padded with `pad` to the length `max(w, natural length)`, on the left when
`right_justified` and on the right otherwise. -/
theorem Decimal_grouping (INT : IntType) (value : Int) (sep : UString) (hbits : 0 < INT.bits)
    (hrange : (value.natAbs : Int) ≤ INT.max) :
    (∀ pad, Decimal INT value 0 true sep false pad =
      some ((if value < 0 then ['-'] else []) ++ groupDigits sep (decimalDigits value.natAbs))) ∧
    (∀ w right_justified pad,
      Decimal INT value w right_justified sep false pad =
        some (padTo w right_justified pad
          ((if value < 0 then ['-'] else []) ++
            groupDigits sep (decimalDigits value.natAbs))) ∧
      (padTo w right_justified pad
          ((if value < 0 then ['-'] else []) ++
            groupDigits sep (decimalDigits value.natAbs))).length =
        max w ((if value < 0 then ['-'] else []) ++
            groupDigits sep (decimalDigits value.natAbs)).length) ∧
    Decimal int32 1234567 0 true ",".toList false ' ' = some "1,234,567".toList ∧
    Decimal int32 0 0 true ",".toList false ' ' = some "0".toList ∧
    groupDigits ", ".toList (decimalDigits 1234567) = "1, 234, 567".toList ∧
    padTo 6 true '*' "-123".toList = "**-123".toList ∧
    padTo 6 false '*' "-123".toList = "-123**".toList := by
  refine ⟨?_, ?_, by decide, by decide, by decide, by decide, by decide⟩
  · intro pad
    rw [Decimal_eq INT value 0 true sep pad hbits hrange, padTo_zero]
  · intro w right_justified pad
    exact ⟨Decimal_eq INT value w right_justified sep pad hbits hrange, padTo_length _ _ _ _⟩

theorem Decimal_grouping_witness :
    Decimal int32 (-2147483647) 16 true ".".toList false ' ' =
      some "  -2.147.483.647".toList :=
  ((Decimal_grouping int32 (-2147483647) ".".toList (by decide) (by decide)).2.1
    16 true ' ').1.trans (by decide)

/-! ## `toIntegers` -/

theorem segments_nil (IsSpace : Char → Bool) : segments IsSpace [] = [] := by
  simp [segments, List.splitOn]

theorem segments_cons_separator (IsSpace : Char → Bool) (t : UString) :
    segments IsSpace (',' :: t) = segments IsSpace t := by
  simp [segments, List.splitOn, List.splitOnP_cons]

theorem segments_cons_space (IsSpace : Char → Bool) (c : Char) (t : UString)
    (hc : IsSpace c = true) (hne : c ≠ ',') :
    segments IsSpace (c :: t) = segments IsSpace t := by
  have hb : (c == ',') = false := by simpa using hne
  simp only [segments, List.splitOn, List.splitOnP_cons, hb, Bool.false_eq_true, if_false]
  cases h : List.splitOnP (fun x => x == ',') t with
  | nil => exact absurd h (List.splitOnP_ne_nil _ _)
  | cons hd tl => simp [List.modifyHead, hc]

/-- Skipping the white space and the list separators at the head of the string does not change
its segments. -/
theorem segments_skip (IsSpace : Char → Bool) (s : UString) :
    segments IsSpace (s.dropWhile (fun c => IsSpace c || decide (c ∈ [','])))
      = segments IsSpace s := by
  induction s with
  | nil => rfl
  | cons c t ih =>
    by_cases hsep : c = ','
    · subst hsep
      rw [List.dropWhile_cons_of_pos (by simp), ih, segments_cons_separator]
    · by_cases hsp : IsSpace c = true
      · rw [List.dropWhile_cons_of_pos (by simp [hsp]), ih,
          segments_cons_space IsSpace c t hsp hsep]
      · rw [List.dropWhile_cons_of_neg (by simp [hsp, hsep])]

theorem dropWhile_head_false (p : Char → Bool) (s : UString) (c : Char) (t : UString)
    (h : s.dropWhile p = c :: t) : p c = false := by
  induction s with
  | nil => simp at h
  | cons x r ih =>
    by_cases hx : p x = true
    · rw [List.dropWhile_cons_of_pos hx] at h
      exact ih h
    · rw [List.dropWhile_cons_of_neg hx] at h
      injection h with h1 h2
      subst h1
      simpa using hx

/-- The segments of a string that starts with a character that is neither white space nor the
list separator: the characters up to the next separator, then the segments of the rest. -/
theorem segments_of_head (IsSpace : Char → Bool) (c : Char) (t : UString)
    (hsp : IsSpace c = false) (hsep : c ≠ ',') :
    segments IsSpace (c :: t) =
      (c :: t).takeWhile (fun x => decide (x ∉ [','])) ::
        segments IsSpace ((c :: t).dropWhile (fun x => decide (x ∉ [',']))) := by
  have hsplit := List.takeWhile_append_dropWhile (fun x => decide (x ∉ [','])) (c :: t)
  have hseg : ∀ x ∈ (c :: t).takeWhile (fun x => decide (x ∉ [','])), ¬ (x == ',') = true := by
    intro x hx
    have := List.mem_takeWhile_imp hx
    simpa using this
  have hhead : (c :: t).takeWhile (fun x => decide (x ∉ [',']))
      = c :: t.takeWhile (fun x => decide (x ∉ [','])) := by
    rw [List.takeWhile_cons_of_pos (by simp [hsep])]
  have hdrop : ((c :: t).takeWhile (fun x => decide (x ∉ [',']))).dropWhile IsSpace
      = (c :: t).takeWhile (fun x => decide (x ∉ [','])) := by
    rw [hhead, List.dropWhile_cons_of_neg (by simp [hsp])]
  cases hrest : (c :: t).dropWhile (fun x => decide (x ∉ [','])) with
  | nil =>
    rw [hrest, List.append_nil] at hsplit
    rw [segments_nil]
    have hsingle : (c :: t).splitOn ',' = [c :: t] := by
      apply List.splitOnP_eq_single
      rw [← hsplit]
      exact hseg
    rw [hsplit] at hdrop ⊢
    simp only [segments, hsingle, List.map_cons, List.map_nil, hdrop]
    simp
  | cons y r =>
    have hy : y = ',' := by
      have h := List.head_dropWhile_not (fun x => decide (x ∉ [','])) (c :: t)
        (by rw [hrest]; simp)
      simp only [hrest, List.head_cons] at h
      simpa using h
    subst hy
    rw [hrest] at hsplit
    rw [segments_cons_separator]
    have hfirst := List.splitOnP_first (fun x => x == ',')
      ((c :: t).takeWhile (fun x => decide (x ∉ [',']))) hseg ',' (by simp) r
    conv_lhs => rw [← hsplit]
    simp only [segments, List.splitOn, hfirst, List.map_cons, hdrop]
    rw [hhead]
    simp

/-- The loop of `toIntegers` with the list separator `","` and no thousands separator decodes
the segments of the string in order, and is left before the iterations are used up. -/
theorem toIntegersLoop_segments (IsSpace : Char → Bool) (INT : IntType) (n : Nat) :
    ∀ (s : UString) (fuel : Nat) (container : List Int), s.length ≤ n → s.length < fuel →
      toIntegersLoop IsSpace INT [] [','] fuel s container =
        some (decodeSegments IsSpace INT (segments IsSpace s) container) := by
  induction n with
  | zero =>
    intro s fuel container hn _
    have hs : s = [] := List.length_eq_zero.mp (by omega)
    subst hs
    cases fuel <;> simp [toIntegersLoop, segments_nil, decodeSegments]
  | succ n ih =>
    intro s fuel container hn hfuel
    obtain ⟨f, rfl⟩ : ∃ f, fuel = f + 1 := ⟨fuel - 1, by omega⟩
    by_cases hs : s = []
    · subst hs
      simp [toIntegersLoop, segments_nil, decodeSegments]
    · simp only [toIntegersLoop, if_pos hs]
      rw [← segments_skip IsSpace s]
      have hlen : (s.dropWhile (fun c => IsSpace c || decide (c ∈ [',']))).length ≤ s.length :=
        (List.dropWhile_sublist _).length_le
      cases hr1 : s.dropWhile (fun c => IsSpace c || decide (c ∈ [','])) with
      | nil => simp [segments_nil, decodeSegments]
      | cons c t =>
        have hc0 := dropWhile_head_false _ s c t hr1
        have hc : IsSpace c = false ∧ c ≠ ',' := by
          simp only [Bool.or_eq_false_iff, decide_eq_false_iff_not, List.mem_singleton] at hc0
          exact hc0
        rw [hr1] at hlen
        rw [segments_of_head IsSpace c t hc.1 hc.2]
        have hlen2 : ((c :: t).dropWhile (fun x => decide (x ∉ [',']))).length ≤ t.length := by
          rw [List.dropWhile_cons_of_pos (by simp [hc.2])]
          exact (List.dropWhile_sublist _).length_le
        simp only [List.length_cons] at hlen
        simp only [reduceCtorEq, if_false, decodeSegments]
        split
        · rfl
        · exact ih _ f _ (by omega) (by omega)

theorem decodeSegments_true_iff (IsSpace : Char → Bool) (INT : IntType) (segs : List UString)
    (container : List Int) :
    (decodeSegments IsSpace INT segs container).1 = true ↔
      ∀ seg ∈ segs, (toInteger IsSpace INT seg []).1 = true := by
  induction segs generalizing container with
  | nil => simp [decodeSegments]
  | cons seg rest ih =>
    simp only [decodeSegments, List.mem_cons, forall_eq_or_imp]
    by_cases h : (toInteger IsSpace INT seg []).1 = false
    · simp [h]
    · rw [if_neg h, ih]
      simp only [Bool.not_eq_false] at h
      simp [h]

theorem asciiSpace_of_isDecDigit (c : Char) (h : isDecDigit c = true) : asciiSpace c = false := by
  simp only [isDecDigit, Bool.and_eq_true, decide_eq_true_eq] at h
  simp only [asciiSpace, Bool.or_eq_false_iff, Bool.and_eq_false_iff, decide_eq_false_iff_not]
  omega

theorem dropWhile_of_all_false (p : Char → Bool) (l : UString) (h : ∀ c ∈ l, p c = false) :
    l.dropWhile p = l := by
  cases l with
  | nil => rfl
  | cons a r => rw [List.dropWhile_cons_of_neg (by simp [h a (List.mem_cons_self _ _)])]

theorem rdropWhile_of_all_false (p : Char → Bool) (l : UString) (h : ∀ c ∈ l, p c = false) :
    l.rdropWhile p = l := by
  rw [List.rdropWhile_eq_self_iff]
  intro hl
  rw [h _ (List.getLast_mem hl)]
  simp

/-- The decimal representation of a number denotes this number, when no decimal digit is white
space. -/
theorem decimalDigits_denotes (IsSpace : Char → Bool) (is_signed : Bool) (n : Nat)
    (hdig : ∀ c, isDecDigit c = true → IsSpace c = false) :
    Denotes IsSpace is_signed (decimalDigits n) (n : Int) := by
  have hall := toDigits_isDecDigit n
  have hne := toDigits_ne_nil n
  have hsp : ∀ c ∈ decimalDigits n, IsSpace c = false := fun c hc => hdig c (hall c hc)
  have h1 := dropWhile_of_all_false IsSpace (decimalDigits n) hsp
  have h2 := rdropWhile_of_all_false IsSpace (decimalDigits n) hsp
  unfold Denotes
  rw [h1, h2]
  exact Or.inl (Or.inl ⟨hne, hall, (numeralValue_toDigits n).symm⟩)

/-- Decoding of the decimal representations of values of the integer type. -/
theorem decodeSegments_decimal (IsSpace : Char → Bool) (INT : IntType) (hbits : 0 < INT.bits)
    (hdig : ∀ c, isDecDigit c = true → IsSpace c = false) (xs : List Nat)
    (hxs : ∀ x ∈ xs, (x : Int) ≤ INT.max) (container : List Int) :
    decodeSegments IsSpace INT (xs.map decimalDigits) container =
      (true, container ++ xs.map (fun x => (x : Int))) := by
  induction xs generalizing container with
  | nil => simp [decodeSegments]
  | cons x r ih =>
    have hx := toInteger_in_range IsSpace INT hbits (decimalDigits x) (x : Int)
      (decimalDigits_denotes IsSpace INT.is_signed x hdig) (by omega)
      (hxs x (List.mem_cons_self _ _))
    simp only [List.map_cons, decodeSegments, hx, Bool.true_eq_false, if_false]
    rw [ih (fun y hy => hxs y (List.mem_cons_of_mem _ hy))]
    simp

/-- The segments of decimal representations joined with the list separator. -/
theorem segments_decimal (IsSpace : Char → Bool)
    (hdig : ∀ c, isDecDigit c = true → IsSpace c = false) (xs : List Nat) :
    segments IsSpace ([','].intercalate (xs.map decimalDigits)) = xs.map decimalDigits := by
  by_cases hxs : xs = []
  · subst hxs
    simp [List.intercalate, segments_nil]
  · have hsep : ∀ l ∈ xs.map decimalDigits, ',' ∉ l := by
      intro l hl hmem
      obtain ⟨x, _, rfl⟩ := List.mem_map.mp hl
      have := toDigits_isDecDigit x ',' hmem
      revert this
      decide
    have hne : xs.map decimalDigits ≠ [] := by simpa using hxs
    unfold segments
    rw [List.splitOn_intercalate _ ',' hsep hne, List.map_map, List.filter_map]
    have hid : ∀ x : Nat, (decimalDigits x).dropWhile IsSpace = decimalDigits x := by
      intro x
      exact dropWhile_of_all_false IsSpace _ (fun c hc => hdig c (toDigits_isDecDigit x c hc))
    have hfun : ((fun p : UString => p.dropWhile IsSpace) ∘ decimalDigits) = decimalDigits := by
      funext x
      exact hid x
    rw [hfun]
    congr 1
    apply List.filter_eq_self.mpr
    intro x _
    have := toDigits_ne_nil x
    simp only [Function.comp, decimalDigits]
    cases h : Nat.toDigits 10 x with
    | nil => exact absurd h this
    | cons a b => rfl

/-- C16. `toIntegers` decodes a list of integers: with no thousands separator and the list
separator `","`, the plain decimal representations of values `xs` of the integer type, joined
with `","` (by `Join` or by the concatenation of the library, which agree here), are decoded
with success into the container `xs`, in order; the empty string gives true and an empty
container; and on every string the function returns, with true exactly when every segment has
the integer syntax, so with false when some segment is not a valid integer. -/
theorem toIntegers_decimal_list (IsSpace : Char → Bool) (INT : IntType) (xs : List Nat)
    (hbits : 0 < INT.bits) (hdig : ∀ c, isDecDigit c = true → IsSpace c = false)
    (hxs : ∀ x ∈ xs, (x : Int) ≤ INT.max) :
    toIntegers IsSpace INT ([','].intercalate (xs.map decimalDigits)) [] [','] =
      some (true, xs.map (fun x => (x : Int))) ∧
    Join (xs.map decimalDigits) [','] = [','].intercalate (xs.map decimalDigits) ∧
    toIntegers IsSpace INT [] [] [','] = some (true, []) ∧
    (∀ s : UString, ∃ b container, toIntegers IsSpace INT s [] [','] = some (b, container) ∧
      (b = true ↔ ∀ seg ∈ segments IsSpace s, IntegerSyntax IsSpace INT.is_signed seg)) ∧
    (∀ s : UString, (∃ seg ∈ segments IsSpace s, ¬ IntegerSyntax IsSpace INT.is_signed seg) →
      ∃ container, toIntegers IsSpace INT s [] [','] = some (false, container)) := by
  have hloop : ∀ s : UString, toIntegers IsSpace INT s [] [','] =
      some (decodeSegments IsSpace INT (segments IsSpace s) []) := fun s =>
    toIntegersLoop_segments IsSpace INT s.length s (s.length + 1) [] (le_refl _) (by omega)
  have hiff : ∀ s : UString, (decodeSegments IsSpace INT (segments IsSpace s) []).1 = true ↔
      ∀ seg ∈ segments IsSpace s, IntegerSyntax IsSpace INT.is_signed seg := by
    intro s
    rw [decodeSegments_true_iff]
    constructor
    · intro h seg hseg
      exact toInteger_accepted_form IsSpace INT seg (h seg hseg)
    · intro h seg hseg
      obtain ⟨n, hn⟩ := h seg hseg
      rw [toInteger_denotes IsSpace INT seg n hn]
  refine ⟨?_, ?_, ?_, ?_, ?_⟩
  · rw [hloop, segments_decimal IsSpace hdig xs,
      decodeSegments_decimal IsSpace INT hbits hdig xs hxs []]
    rfl
  · unfold Join
    rw [JoinLoop_nil]
    cases xs with
    | nil => rfl
    | cons x r =>
      have hne := toDigits_ne_nil x
      have he : (decimalDigits x).isEmpty = false := by
        unfold decimalDigits
        cases h : Nat.toDigits 10 x with
        | nil => exact absurd h hne
        | cons a b => rfl
      rw [List.map_cons, List.dropWhile_cons, he]
      rfl
  · rw [hloop, segments_nil]
    rfl
  · intro s
    exact ⟨_, _, hloop s, hiff s⟩
  · rintro s ⟨seg, hseg, hbad⟩
    refine ⟨(decodeSegments IsSpace INT (segments IsSpace s) []).2, ?_⟩
    rw [hloop]
    have hfalse : (decodeSegments IsSpace INT (segments IsSpace s) []).1 = false := by
      cases hb : (decodeSegments IsSpace INT (segments IsSpace s) []).1 with
      | false => rfl
      | true => exact absurd ((hiff s).mp hb seg hseg) hbad
    rw [← hfalse]

theorem toIntegers_decimal_list_witness :
    toIntegers asciiSpace uint16 ([','].intercalate ([0, 22, 65535].map decimalDigits)) [] [',']
      = some (true, [0, 22, 65535].map (fun x => (x : Int))) ∧
    [','].intercalate ([0, 22, 65535].map decimalDigits) = "0,22,65535".toList ∧
    toIntegers asciiSpace uint16 "1,x,3".toList [] [','] = some (false, [1]) ∧
    toIntegers asciiSpace uint16 "1,,2, ,3 ".toList [] [','] = some (true, [1, 2, 3]) :=
  ⟨(toIntegers_decimal_list asciiSpace uint16 [0, 22, 65535] (by decide)
      asciiSpace_of_isDecDigit (by decide)).1, by decide, by decide, by decide⟩

/-! ## `fromCommmandLine` -/

/-- C6. Command-line decoding example: on the token `6a01/0x50`, `fromCommmandLine` succeeds
and sets `cas_id = 0x6a01` (27137), `ca_pid = 0x50` (80) and empty private data, whatever the
object was before; the casid part `6a01`, which has no `0x` prefix, is read as the hexadecimal
number `0x6a01`. -/
theorem fromCommmandLine_6a01 (x : CADescriptor) :
    CADescriptor.fromCommmandLine x "6a01/0x50".toList =
      (true, { valid := true, cas_id := 0x6a01, ca_pid := 0x50, private_data := [] }) ∧
    (CADescriptor.fromCommmandLine x "6a01/0x50".toList).2.cas_id = 27137 ∧
    (CADescriptor.fromCommmandLine x "6a01/0x50".toList).2.ca_pid = 80 ∧
    (CADescriptor.fromCommmandLine x "6a01/0x50".toList).2.private_data = [] ∧
    commandLineInteger "6a01".toList = some 0x6a01 ∧
    commandLineInteger "0x50".toList = some 0x50 := by
  have hs : "6a01/0x50".toList.splitOn '/' = ["6a01".toList, "0x50".toList] := by decide
  have hc : commandLineInteger "6a01".toList = some 0x6a01 := by decide
  have hp : commandLineInteger "0x50".toList = some 0x50 := by decide
  have h : CADescriptor.fromCommmandLine x "6a01/0x50".toList =
      (true, { valid := true, cas_id := 0x6a01, ca_pid := 0x50, private_data := [] }) := by
    unfold CADescriptor.fromCommmandLine
    rw [hs]
    simp only [hc, hp]
    rw [if_pos (by decide)]
  rw [h]
  exact ⟨rfl, rfl, rfl, rfl, hc, hp⟩

/-- C8. Atomicity: when `fromCommmandLine` returns false, the object after the call is the
object before the call (same `cas_id`, `ca_pid` and `private_data`); it returns false on
`1/1/xyz` (private data that is not hexadecimal) and on `1/1/abc` (odd length). -/
theorem fromCommmandLine_atomic (x : CADescriptor) (value : UString) :
    ((CADescriptor.fromCommmandLine x value).1 = false →
      (CADescriptor.fromCommmandLine x value).2 = x ∧
      (CADescriptor.fromCommmandLine x value).2.cas_id = x.cas_id ∧
      (CADescriptor.fromCommmandLine x value).2.ca_pid = x.ca_pid ∧
      (CADescriptor.fromCommmandLine x value).2.private_data = x.private_data) ∧
    (CADescriptor.fromCommmandLine x "1/1/xyz".toList).1 = false ∧
    (CADescriptor.fromCommmandLine x "1/1/abc".toList).1 = false := by
  have key : (CADescriptor.fromCommmandLine x value).1 = false →
      (CADescriptor.fromCommmandLine x value).2 = x := by
    unfold CADescriptor.fromCommmandLine
    split
    · simp only
      split
      · split
        · intro h; cases h
        · intro _; rfl
      · intro _; rfl
    · intro _; rfl
  refine ⟨fun h => ?_, ?_, ?_⟩
  · have e := key h
    exact ⟨e, by rw [e], by rw [e], by rw [e]⟩
  · have hs : "1/1/xyz".toList.splitOn '/' = ["1".toList, "1".toList, "xyz".toList] := by
      decide
    have hd : hexaDecode "xyz".toList = none := by decide
    have hc : commandLineInteger "1".toList = some 1 := by decide
    unfold CADescriptor.fromCommmandLine
    rw [hs]
    simp only [hd, hc]
  · have hs : "1/1/abc".toList.splitOn '/' = ["1".toList, "1".toList, "abc".toList] := by
      decide
    have hd : hexaDecode "abc".toList = none := by decide
    have hc : commandLineInteger "1".toList = some 1 := by decide
    unfold CADescriptor.fromCommmandLine
    rw [hs]
    simp only [hd, hc]

theorem fromCommmandLine_atomic_witness :
    (CADescriptor.fromCommmandLine
      { valid := true, cas_id := 7, ca_pid := 8, private_data := [9] } "1/1/xyz".toList).2 =
      { valid := true, cas_id := 7, ca_pid := 8, private_data := [9] } :=
  ((fromCommmandLine_atomic
    { valid := true, cas_id := 7, ca_pid := 8, private_data := [9] } "1/1/xyz".toList).1
    (by decide)).1

end ts
